import Mathlib

/-!
Verification development for the ParaJobs Superintendent-Reports data pipeline
(`data_processing.py`).  The Python functions relevant to the frozen claims are
shallowly embedded as executable Lean definitions: pandas DataFrames become
lists of records, dictionaries become overwrite-folded lookup functions, float
percentages become rationals, and a raised exception becomes `Except.error`.
-/

namespace ParaJobs

/-! ## Python string primitives (ASCII fragment used by the pipeline) -/

/-- Python whitespace (the characters stripped by `str.strip()` and matched by
the regex class `\s`, restricted to ASCII). -/
def isPySpace (c : Char) : Bool :=
  c = ' ' || c = '\t' || c = '\n' || c = '\r' || c = '\x0b' || c = '\x0c'

/-- Regex word character `\w` (ASCII): alphanumeric or underscore.  Used for
the word-boundary test `\b`. -/
def isWordChar (c : Char) : Bool := c.isAlphanum || c = '_'

/-- ASCII uppercasing of one character, as done by Python `str.upper()` on the
ASCII range. -/
def upChar (c : Char) : Char :=
  if 97 ≤ c.toNat ∧ c.toNat ≤ 122 then Char.ofNat (c.toNat - 32) else c

/-- ASCII lowercasing of one character, as done by Python `str.lower()` on the
ASCII range (used by `str.title()`). -/
def lowChar (c : Char) : Char :=
  if 65 ≤ c.toNat ∧ c.toNat ≤ 90 then Char.ofNat (c.toNat + 32) else c

/-- Drop trailing whitespace from a character list. -/
def stripRightL (cs : List Char) : List Char :=
  (cs.reverse.dropWhile isPySpace).reverse

/-- `str.strip()` on a character list: drop leading and trailing whitespace. -/
def stripL (cs : List Char) : List Char :=
  stripRightL (cs.dropWhile isPySpace)

/-- Python `str.strip()`. -/
def pyStrip (s : String) : String := ⟨stripL s.data⟩

/-- Python `str.upper()` (ASCII). -/
def pyUpper (s : String) : String := ⟨s.data.map upChar⟩

/-- Python `str.zfill(w)`: left-pad with zeros to width `w`, keeping a leading
sign in front of the padding. -/
def zfill (w : Nat) (s : String) : String :=
  if w ≤ s.length then s
  else
    match s.data with
    | '-' :: rest => ⟨'-' :: (List.replicate (w - s.length) '0' ++ rest)⟩
    | '+' :: rest => ⟨'+' :: (List.replicate (w - s.length) '0' ++ rest)⟩
    | _ => ⟨List.replicate (w - s.length) '0' ++ s.data⟩

/-- Helper for Python `str.title()`: uppercase a letter that follows a
non-letter, lowercase a letter that follows a letter; the Boolean state records
whether the previous character was a letter. -/
def titleAux : Bool → List Char → List Char
  | _, [] => []
  | prevAlpha, c :: cs =>
    (if c.isAlpha then (if prevAlpha then lowChar c else upChar c) else c) :: titleAux c.isAlpha cs

/-- Python `str.title()` (ASCII), as used on the `Type` column. -/
def pyTitle (s : String) : String := ⟨titleAux false s.data⟩

/-- Python `s[-4:]` on a character list: the last (at most) four characters. -/
def lastFourL (cs : List Char) : List Char := cs.drop (cs.length - 4)

/-- Python `s[-4:]`: the trailing four characters (the whole string when it is
shorter), used as the location-translation key. -/
def lastFour (s : String) : String := ⟨lastFourL s.data⟩

/-! ## Calendar dates

`Job Start` / `DATE` values are pandas timestamps; matching only uses their
calendar date, modelled as a `(year, month, day)` triple.  The conversions
between a date and its day number (days since 1970-01-01, proleptic Gregorian)
are the standard civil-calendar algorithms, used to give meaning to the Excel
serial-number parse `pd.to_datetime(n - 1, unit='D', origin='1900-01-01')`. -/

structure Date where
  y : Int
  m : Int
  d : Int
deriving DecidableEq, Repr

/-- Civil date from a day number (days since 1970-01-01). -/
def civilFromDays (z0 : Int) : Date :=
  let z := z0 + 719468
  let era := (if 0 ≤ z then z else z - 146096) / 146097
  let doe := z - era * 146097
  let yoe := (doe - doe / 1460 + doe / 36524 - doe / 146096) / 365
  let y := yoe + era * 400
  let doy := doe - (365 * yoe + yoe / 4 - yoe / 100)
  let mp := (5 * doy + 2) / 153
  let d := doy - (153 * mp + 2) / 5 + 1
  let m := if mp < 10 then mp + 3 else mp - 9
  ⟨if m ≤ 2 then y + 1 else y, m, d⟩

/-- Day number (days since 1970-01-01) of a civil date. -/
def daysFromCivil (dt : Date) : Int :=
  let y := if dt.m ≤ 2 then dt.y - 1 else dt.y
  let era := (if 0 ≤ y then y else y - 399) / 400
  let yoe := y - era * 400
  let mp := if 2 < dt.m then dt.m - 3 else dt.m + 9
  let doy := (153 * mp + 2) / 5 + dt.d - 1
  let doe := yoe * 365 + yoe / 4 - yoe / 100 + doy
  era * 146097 + doe - 719468

/-- The date obtained by adding `k` days to `dt`. -/
def addDays (dt : Date) (k : Int) : Date := civilFromDays (daysFromCivil dt + k)

/-- The parse of a numeric `Job Start` value in `load_and_process_data`:
`pd.to_datetime(n - 1, unit='D', origin='1900-01-01')`, i.e. the date `n - 1`
days after 1900-01-01. -/
def jobStartOfSerial (n : Int) : Date := addDays ⟨1900, 1, 1⟩ (n - 1)

/-- `strftime('%Y%m%d')`: the 8-digit date string used inside composite job
identifiers. -/
def fmt8 (dt : Date) : String :=
  zfill 4 (toString dt.y) ++ zfill 2 (toString dt.m) ++ zfill 2 (toString dt.d)

/-! ## Schema normalizer fragments of `load_and_process_data` -/

/-- The fixed whitelist of `Status` strings meaning a filled job. -/
def filledStatuses : List String :=
  ["Finished/Admin Assigned", "Finished/IVR Assigned", "Finished/IVR Sub Search",
   "Finished/Pre Arranged", "Finished/Web Sub Search"]

/-- `Fill_Status` derivation: `Filled` when the raw status is whitelisted,
otherwise `Unfilled`. -/
def fillStatusOf (status : String) : String :=
  if status ∈ filledStatuses then "Filled" else "Unfilled"

/-- `Type_Fill_Status` derivation: the trimmed, title-cased `Type` joined with
the fill status by an underscore. -/
def mkTypeFillStatus (ty status : String) : String :=
  pyTitle (pyStrip ty) ++ "_" ++ fillStatusOf status

/-- The four canonical `Type_Fill_Status` buckets. -/
def fourBuckets : List String :=
  ["Vacancy_Filled", "Vacancy_Unfilled", "Absence_Filled", "Absence_Unfilled"]

/-! ## Cross-system matcher: `create_matching_analysis`

A SubCentral row carries the columns used for key construction; the option
fields are `None` exactly when the pandas value is missing or fails the
`pd.to_numeric` / `pd.to_datetime` coercion (those rows are filtered out). -/

structure PrimRecord where
  location : String
  fillStatus : String
  specifiedSub : Option Int
  jobStart : Option Date
deriving DecidableEq, Repr

structure SreppRecord where
  school : String
  eisid : Option Int
  date : Option Date
deriving DecidableEq, Repr

/-- SubCentral composite key
`Location_Clean + '|' + EISID_Clean + '|' + Job_Date_Int`. -/
def primJobId (loc : String) (n : Int) (dt : Date) : String :=
  pyStrip loc ++ "|" ++ zfill 7 (toString n) ++ "|" ++ fmt8 dt

/-- `School_Clean`: strip the raw SREPP school code and drop its first two
characters. -/
def schoolClean (school : String) : String := (pyStrip school).drop 2

/-- SREPP composite key `School_Clean + '|' + EISID_Clean + '|' + Date_Int`. -/
def sreppJobId (school : String) (n : Int) (dt : Date) : String :=
  schoolClean school ++ "|" ++ zfill 7 (toString n) ++ "|" ++ fmt8 dt

/-- `pandas.unique`: the distinct values of a column in first-occurrence
order. -/
def pyUnique (l : List String) : List String :=
  l.foldl (fun acc x => if x ∈ acc then acc else acc ++ [x]) []

/-- The payroll-to-SubCentral location translation table: for every distinct
`main_df['Location']` value, map the last four characters of the stripped
location to the full stripped location; a later location silently overwrites
an earlier one with the same suffix (dict assignment). -/
def locationMappingOf (mainRows : List PrimRecord) : String → Option String :=
  (pyUnique (mainRows.map (fun r => r.location))).foldl
    (fun f loc => fun k =>
      if k = lastFour (pyStrip loc) then some (pyStrip loc) else f k)
    (fun _ => none)

/-- SubCentral side of the matcher: filter to `Fill_Status == 'Filled'`, drop
rows with missing/invalid `Job Start` or `Specified Sub`, and emit
`(Location_Clean, Job_ID)` pairs. -/
def primPairs (rows : List PrimRecord) : List (String × String) :=
  (rows.filter (fun r => decide (r.fillStatus = "Filled"))).filterMap fun r =>
    match r.specifiedSub, r.jobStart with
    | some n, some dt => some (pyStrip r.location, primJobId r.location n dt)
    | _, _ => none

/-- The SREPP pair generated by one payroll record: rows with missing `EISID`
or unparseable `DATE` are dropped, the composite key is built from
`School_Clean`, and the record is attributed to the SubCentral location that
`School_Clean` translates to (dropped when untranslatable). -/
def sreppPairOf (mainRows : List PrimRecord) (r : SreppRecord) : Option (String × String) :=
  match r.eisid, r.date with
  | some n, some dt =>
    match locationMappingOf mainRows (schoolClean r.school) with
    | some loc => some (loc, sreppJobId r.school n dt)
    | none => none
  | _, _ => none

/-- SREPP side of the matcher: `(translated Location, Job_ID)` pairs. -/
def sreppPairs (mainRows : List PrimRecord) (sreppRows : List SreppRecord) :
    List (String × String) :=
  sreppRows.filterMap (sreppPairOf mainRows)

/-- Per-location totals dictionary (`groupby(...).size()`): the number of
pairs at a location. -/
def totalAt (pairs : List (String × String)) (l : String) : Nat :=
  (pairs.filter (fun p => decide (p.1 = l))).length

/-- Per-location set of unique job identifiers (the Python `set`), as a
deduplicated list. -/
def jobSetAt (pairs : List (String × String)) (l : String) : List String :=
  ((pairs.filter (fun p => decide (p.1 = l))).map (fun p => p.2)).dedup

/-- `all_locations`: every location appearing in either totals dictionary. -/
def allLocations (sub srepp : List (String × String)) : List String :=
  (sub.map (fun p => p.1) ++ srepp.map (fun p => p.1)).dedup

structure MatchRow where
  location : String
  subCentralJobDays : Nat
  payrollJobDays : Nat
  matchedJobs : Nat
  matchPercentage : ℚ
deriving DecidableEq, Repr

/-- One row of the matching analysis for a location: counts from both totals
dictionaries, the size of the intersection of the two key sets, and the
zero-guarded coverage percentage. -/
def mkMatchRow (sub srepp : List (String × String)) (l : String) : MatchRow :=
  let sd := totalAt sub l
  let pd := totalAt srepp l
  let m := (jobSetAt sub l).countP (fun id => decide (id ∈ jobSetAt srepp l))
  ⟨l, sd, pd, m, if 0 < pd then (m : ℚ) / (pd : ℚ) * 100 else 0⟩

/-- The unsorted matching table: one row per location of `all_locations`. -/
def matchRows (sub srepp : List (String × String)) : List MatchRow :=
  (allLocations sub srepp).map (mkMatchRow sub srepp)

/-- `sort_values('Location')` (all locations are distinct, so stability is
irrelevant). -/
def sortRows (rs : List MatchRow) : List MatchRow :=
  List.insertionSort (fun a b => a.location ≤ b.location) rs

/-- The SubCentral input table: the Boolean flags record which of the required
columns are present in the DataFrame. -/
structure MainTable where
  hasLocation : Bool
  hasSpecifiedSub : Bool
  hasJobStart : Bool
  rows : List PrimRecord
deriving Repr

/-- The SREPP input table with its required-column flags. -/
structure SreppTable where
  hasSchool : Bool
  hasEisid : Bool
  hasDate : Bool
  rows : List SreppRecord
deriving Repr

/-- SubCentral key construction guarded by the required-column check: with any
of `Location`, `Specified Sub`, `Job Start` missing the side is skipped and
both its jobs dictionary and its totals stay empty. -/
def mainSidePairs (mt : MainTable) : List (String × String) :=
  if mt.rows.isEmpty then []
  else if mt.hasLocation && mt.hasSpecifiedSub && mt.hasJobStart then primPairs mt.rows
  else []

/-- The SREPP rows that survive the `EISID` and `DATE` filters. -/
def sreppValidRows (rows : List SreppRecord) : List SreppRecord :=
  rows.filter (fun r => r.eisid.isSome && r.date.isSome)

/-- SREPP key construction: guarded by the `SCHOOL`/`EISID`/`DATE` column
check, which skips the side; but when valid payroll rows exist the
location-translation table is built from `main_df['Location']` without any
column guard, so a non-empty SubCentral table lacking `Location` raises a
`KeyError` here. -/
def sreppSidePairsE (mt : MainTable) (st : SreppTable) :
    Except String (List (String × String)) :=
  if st.rows.isEmpty then .ok []
  else if !(st.hasSchool && st.hasEisid && st.hasDate) then .ok []
  else if (sreppValidRows st.rows).isEmpty then .ok []
  else if mt.rows.isEmpty then .ok (sreppPairs [] st.rows)
  else if !mt.hasLocation then .error "KeyError: Location"
  else .ok (sreppPairs mt.rows st.rows)

/-- `create_matching_analysis`: build both sides, take the union of the
per-location totals keys, emit one row per location and sort by location.
A Python exception is `Except.error`. -/
def create_matching_analysis (mt : MainTable) (st : SreppTable) :
    Except String (List MatchRow) :=
  if mt.rows.isEmpty && st.rows.isEmpty then .ok []
  else
    (sreppSidePairsE mt st).map fun sp =>
      if (allLocations (mainSidePairs mt) sp).isEmpty then []
      else sortRows (matchRows (mainSidePairs mt) sp)

/-! ## Aggregation engine: `create_summary_stats` and helpers -/

/-- One normalized record as seen by `create_summary_stats`: the grouping-key
values, the classification and the derived `Type_Fill_Status`. -/
structure SRec where
  groupKey : List String
  classification : String
  typeFillStatus : String
deriving DecidableEq, Repr

structure SummaryRow where
  groupKey : List String
  classification : String
  vacancyFilled : Nat
  vacancyUnfilled : Nat
  absenceFilled : Nat
  absenceUnfilled : Nat
  totalVacancy : Nat
  totalAbsence : Nat
  total : Nat
  totalFilled : Nat
  totalUnfilled : Nat
  vacancyFillPct : ℚ
  absenceFillPct : ℚ
  overallFillPct : ℚ
deriving DecidableEq, Repr

/-- Round-half-to-even to an integer (numpy rounding). -/
def roundHalfEven (q : ℚ) : Int :=
  let f := ⌊q⌋
  if q - f < 1 / 2 then f
  else if 1 / 2 < q - f then f + 1
  else if f % 2 = 0 then f else f + 1

/-- `Series.round(1)`: round to one decimal place, half to even. -/
def round1 (q : ℚ) : ℚ := (roundHalfEven (q * 10) : ℚ) / 10

/-- The pivoted count of records of a group falling in one
`Type_Fill_Status` bucket (`fill_value=0` and the ensure-columns loop make a
missing bucket an explicit zero count). -/
def bucketCount (recs : List SRec) (b : String) : Nat :=
  recs.countP (fun r => decide (r.typeFillStatus = b))

/-- The records of one `(group key, Classification)` group. -/
def groupRecs (df : List SRec) (g : List String × String) : List SRec :=
  df.filter (fun r => decide (r.groupKey = g.1 ∧ r.classification = g.2))

/-- One `SummaryRow`: the four pivoted counts, the derived totals and the
three zero-guarded percentages (`np.where(total > 0, round(...), 0)`). -/
def mkSummaryRow (df : List SRec) (g : List String × String) : SummaryRow :=
  let recs := groupRecs df g
  let vf := bucketCount recs "Vacancy_Filled"
  let vu := bucketCount recs "Vacancy_Unfilled"
  let af := bucketCount recs "Absence_Filled"
  let au := bucketCount recs "Absence_Unfilled"
  let tv := vf + vu
  let ta := af + au
  let tot := tv + ta
  { groupKey := g.1
    classification := g.2
    vacancyFilled := vf
    vacancyUnfilled := vu
    absenceFilled := af
    absenceUnfilled := au
    totalVacancy := tv
    totalAbsence := ta
    total := tot
    totalFilled := vf + af
    totalUnfilled := vu + au
    vacancyFillPct := if 0 < tv then round1 ((vf : ℚ) / (tv : ℚ) * 100) else 0
    absenceFillPct := if 0 < ta then round1 ((af : ℚ) / (ta : ℚ) * 100) else 0
    overallFillPct := if 0 < tot then round1 (((vf : ℚ) + (af : ℚ)) / (tot : ℚ) * 100) else 0 }

/-- `create_summary_stats`: one row per `(group key, Classification)` group
occurring in the data (`groupby` only emits non-empty groups). -/
def create_summary_stats (df : List SRec) : List SummaryRow :=
  ((df.map (fun r => (r.groupKey, r.classification))).dedup).map (mkSummaryRow df)

/-- The ad hoc totals dictionary consumed by `calculate_fill_rates`. -/
structure TotalsData where
  total : Int
  totalVacancy : Int
  totalAbsence : Int
  vacancyFilled : Int
  absenceFilled : Int
deriving DecidableEq, Repr

/-- `calculate_fill_rates`: `(overall, vacancy, absence)` fill rates with the
zero-guarded division (`x / t * 100 if t > 0 else 0`). -/
def calculate_fill_rates (d : TotalsData) : ℚ × ℚ × ℚ :=
  (if 0 < d.total then ((d.vacancyFilled : ℚ) + (d.absenceFilled : ℚ)) / (d.total : ℚ) * 100 else 0,
   if 0 < d.totalVacancy then (d.vacancyFilled : ℚ) / (d.totalVacancy : ℚ) * 100 else 0,
   if 0 < d.totalAbsence then (d.absenceFilled : ℚ) / (d.totalAbsence : ℚ) * 100 else 0)

/-! ## `clean_classification_gender`

The gender cleanup first strips the input, returns the fixed category for the
two special values, and otherwise deletes every match of the case-insensitive
regex `\b(FEMALE|MALE)\s*` before collapsing whitespace runs and stripping.
The regex deletion is embedded as a character-level scan: `skipN` counts the
remaining characters of a matched token still to delete, `eat` records that
the scan is inside the `\s*` suffix of a match, and `prev` is the previously
consumed character (for the word-boundary test `\b`). -/

/-- Case-insensitive prefix test: the pattern is given in uppercase, and a
text character matches a pattern character when its ASCII uppercasing equals
it (exactly the `re.IGNORECASE` matching of a letter). -/
def ciStarts : List Char → List Char → Bool
  | [], _ => true
  | _ :: _, [] => false
  | p :: ps, c :: cs => decide (upChar c = p) && ciStarts ps cs

/-- Case-insensitive test for the literal `MALE` at the head of the list. -/
def startsMale (cs : List Char) : Bool := ciStarts "MALE".data cs

/-- Case-insensitive test for the literal `FEMALE` at the head of the list. -/
def startsFemale (cs : List Char) : Bool := ciStarts "FEMALE".data cs

/-- The word-boundary test `\b` before the current position, given the
previously consumed character (`none` at the start of the string; the next
character of a potential match is always a word character). -/
def boundaryB : Option Char → Bool
  | none => true
  | some c => !isWordChar c

/-- One pass of `re.sub(r'\b(FEMALE|MALE)\s*', '', s, flags=IGNORECASE)`. -/
def rgAux : Nat → Bool → Option Char → List Char → List Char
  | _, _, _, [] => []
  | n + 1, _, _, c :: cs => rgAux n true (some c) cs
  | 0, eat, prev, c :: cs =>
    if eat && isPySpace c then rgAux 0 true (some c) cs
    else if boundaryB prev && startsFemale (c :: cs) then rgAux 5 true (some c) cs
    else if boundaryB prev && startsMale (c :: cs) then rgAux 3 true (some c) cs
    else c :: rgAux 0 false (some c) cs

/-- The gender-token deletion on a character list. -/
def removeGenderL (cs : List Char) : List Char := rgAux 0 false none cs

/-- `re.sub(r'\s+', ' ', s)`: every maximal whitespace run becomes a single
space. -/
def collapseWs : List Char → List Char
  | [] => []
  | [c] => if isPySpace c then [' '] else [c]
  | c :: c2 :: cs =>
    if isPySpace c && isPySpace c2 then collapseWs (c2 :: cs)
    else (if isPySpace c then ' ' else c) :: collapseWs (c2 :: cs)

/-- A whitespace-normalized character list: every whitespace character is a
plain space and no two whitespace characters are adjacent (the shape of
`collapseWs` output, on which `collapseWs` is the identity). -/
def normedWs : List Char → Bool
  | [] => true
  | [c] => !isPySpace c || c = ' '
  | c :: c2 :: cs => (!isPySpace c || (c = ' ' && !isPySpace c2)) && normedWs (c2 :: cs)

/-- `clean_classification_gender` on a character list (the input is a string,
so the `pd.isna` branch does not apply). -/
def cleanGenderL (cs : List Char) : List Char :=
  let c := stripL cs
  if c.map upChar = "FEMALE PARA".data ∨ c.map upChar = "MALE PARA".data then
    "PARAPROFESSIONAL".data
  else stripL (collapseWs (removeGenderL c))

/-- `clean_classification_gender`. -/
def clean_classification_gender (s : String) : String := ⟨cleanGenderL s.data⟩

/-- The number of start positions of a case-insensitive occurrence of `MALE`
in a character list (used to state the amended idempotence claim). -/
def maleCount : List Char → Nat
  | [] => 0
  | c :: cs => (if startsMale (c :: cs) then 1 else 0) + maleCount cs

/-- Whether the deletion scan fires anywhere: some position carries a word
boundary immediately followed by `FEMALE` or `MALE` (case-insensitive). -/
def fires : Option Char → List Char → Bool
  | _, [] => false
  | prev, c :: cs =>
    (boundaryB prev && (startsFemale (c :: cs) || startsMale (c :: cs))) || fires (some c) cs

/-! ## Identity mapper: `load_superintendent_mapping`,
`create_school_mapping_dict`, `add_superintendent_info` -/

/-- One raw row of the reference CSV (`DBN, Dist, Boro, Superintendent,
School Name`); `none` models a missing value removed by
`dropna(subset=['DBN', 'Superintendent'])`. -/
structure RefRow where
  dbn : Option String
  dist : String
  boro : String
  superintendent : Option String
  schoolName : String
deriving DecidableEq, Repr

/-- The school-info value stored in the mapping. -/
structure MapInfo where
  district : String
  borough : String
  superintendent : String
  dbn : String
  schoolName : String
deriving DecidableEq, Repr

/-- The two-digit district code with the legacy remap
(`zfill(2)` then `replace('75', '97')`). -/
def districtOf (dist : String) : String :=
  let d := zfill 2 dist
  if d = "75" then "97" else d

/-- The mapping rows surviving `dropna`, keyed by the location code
`DBN[2:]`, before duplicate removal. -/
def keptMappingRows (rows : List RefRow) : List (String × MapInfo) :=
  rows.filterMap fun r =>
    match r.dbn, r.superintendent with
    | some dbnV, some supt =>
      some (dbnV.drop 2, ⟨districtOf r.dist, r.boro, supt, dbnV, r.schoolName⟩)
    | _, _ => none

/-- `drop_duplicates(subset=['Location'], keep='first')`. -/
def dedupFirstAux (seen : List String) : List (String × MapInfo) → List (String × MapInfo)
  | [] => []
  | p :: rest =>
    if p.1 ∈ seen then dedupFirstAux seen rest
    else p :: dedupFirstAux (p.1 :: seen) rest

/-- `load_superintendent_mapping` (given the parsed reference rows): dropna,
derive location/district, and keep the first occurrence of each location. -/
def load_superintendent_mapping (rows : List RefRow) : List (String × MapInfo) :=
  dedupFirstAux [] (keptMappingRows rows)

/-- `create_school_mapping_dict`: iterate the mapping rows into a dictionary
(a later binding for the same location would overwrite an earlier one). -/
def create_school_mapping_dict (m : List (String × MapInfo)) : String → Option MapInfo :=
  m.foldl (fun f p => fun k => if k = p.1 then some p.2 else f k) (fun _ => none)

/-- The enrichment columns added to one record by `add_superintendent_info`. -/
structure EnrichedInfo where
  superintendentName : String
  districtFromMapping : String
  boroughFromMapping : String
  dbn : String
  schoolNameFull : String
deriving DecidableEq, Repr

/-- `add_superintendent_info` for one record: each added column is looked up
by location with the literal fallback `Unknown`. -/
def add_superintendent_info (dict : String → Option MapInfo) (loc : String) : EnrichedInfo :=
  ⟨(dict loc).elim "Unknown" (fun i => i.superintendent),
   (dict loc).elim "Unknown" (fun i => i.district),
   (dict loc).elim "Unknown" (fun i => i.borough),
   (dict loc).elim "Unknown" (fun i => i.dbn),
   (dict loc).elim "Unknown" (fun i => i.schoolName)⟩

/-! ## Concrete sample inputs used by witnesses and counterexamples -/

/-- A one-row SubCentral table with all three matching columns present
(spec scenario 3 shape). -/
def mtSample : MainTable :=
  ⟨true, true, true, [⟨"M015", "Filled", some 12345, some ⟨2023, 9, 14⟩⟩]⟩

/-- A two-row SREPP payroll table whose school code translates to `M015`. -/
def stSample : SreppTable :=
  ⟨true, true, true,
   [⟨"ZZM015", some 12345, some ⟨2023, 9, 14⟩⟩, ⟨"ZZM015", some 67890, some ⟨2023, 9, 15⟩⟩]⟩

/-- The same SubCentral rows presented in a DataFrame lacking the `Location`
column. -/
def mtNoLoc : MainTable :=
  ⟨false, true, true, [⟨"M015", "Filled", some 12345, some ⟨2023, 9, 14⟩⟩]⟩

/-- The SubCentral rows in a DataFrame lacking `Specified Sub` and
`Job Start`. -/
def mtNoSub : MainTable :=
  ⟨true, false, false, [⟨"M015", "Filled", some 12345, some ⟨2023, 9, 14⟩⟩]⟩

/-- A one-record aggregation input: one absence record, no vacancies. -/
def sampleSRecs : List SRec := [⟨[], "PARAPROFESSIONAL", "Absence_Filled"⟩]

/-- An SREPP table with all columns but no rows. -/
def stEmpty : SreppTable := ⟨true, true, true, []⟩

/-! # Theorems -/

/-! ## C5: zero-denominator safety -/

/-- C5: zero-denominator safety of percentages: in every SummaryRow produced
by `create_summary_stats`, a zero `Total_Vacancy` / `Total_Absence` / `Total`
forces the corresponding percentage to be exactly 0 (the embedding is a total
function into ℚ, so the computation cannot raise or produce NaN), and
`calculate_fill_rates` applies the same zero-guarded division to ad hoc totals
dictionaries. -/
theorem C5_zero_denominator_safety :
    (∀ (df : List SRec), ∀ row ∈ create_summary_stats df,
      (row.totalVacancy = 0 → row.vacancyFillPct = 0) ∧
      (row.totalAbsence = 0 → row.absenceFillPct = 0) ∧
      (row.total = 0 → row.overallFillPct = 0)) ∧
    (∀ d : TotalsData,
      (d.total = 0 → (calculate_fill_rates d).1 = 0) ∧
      (d.totalVacancy = 0 → (calculate_fill_rates d).2.1 = 0) ∧
      (d.totalAbsence = 0 → (calculate_fill_rates d).2.2 = 0)) := by
  constructor
  · intro df row hrow
    rw [create_summary_stats, List.mem_map] at hrow
    obtain ⟨g, hg, rfl⟩ := hrow
    refine ⟨fun h => ?_, fun h => ?_, fun h => ?_⟩ <;>
    · simp only [mkSummaryRow] at h ⊢
      rw [if_neg (by omega)]
  · intro d
    refine ⟨fun h => ?_, fun h => ?_, fun h => ?_⟩ <;>
    · simp only [calculate_fill_rates]
      rw [if_neg (by omega)]

/-- Witness for C5 at a concrete input: the sample group has no vacancy
records, and its vacancy fill percentage is 0; a totals dictionary with a zero
total gets a zero overall rate. -/
theorem C5_zero_denominator_safety_witness :
    (mkSummaryRow sampleSRecs ([], "PARAPROFESSIONAL")).vacancyFillPct = 0 ∧
    (calculate_fill_rates ⟨0, 0, 0, 0, 0⟩).1 = 0 :=
  ⟨((C5_zero_denominator_safety.1 sampleSRecs (mkSummaryRow sampleSRecs ([], "PARAPROFESSIONAL"))
      (List.mem_map_of_mem _ (by decide))).1 (by decide)),
   (C5_zero_denominator_safety.2 ⟨0, 0, 0, 0, 0⟩).1 (by decide)⟩

/-! ## C4: bucket exhaustiveness -/

/-- Helper: when every record of a list falls in one of the four canonical
buckets, the four bucket counts sum to the length of the list. -/
theorem bucketCount_four_sum (recs : List SRec)
    (h : ∀ r ∈ recs, r.typeFillStatus ∈ fourBuckets) :
    bucketCount recs "Vacancy_Filled" + bucketCount recs "Vacancy_Unfilled" +
      bucketCount recs "Absence_Filled" + bucketCount recs "Absence_Unfilled"
      = recs.length := by
  induction recs with
  | nil => rfl
  | cons r rs ih =>
    have hr : r.typeFillStatus ∈ fourBuckets := h r (List.mem_cons_self r rs)
    have ihh := ih (fun x hx => h x (List.mem_cons_of_mem r hx))
    simp only [fourBuckets, List.mem_cons, List.not_mem_nil, or_false] at hr
    simp only [bucketCount, List.countP_cons, List.length_cons] at ihh ⊢
    rcases hr with h1 | h1 | h1 | h1 <;> simp [h1] <;> omega

/-- C4: bucket exhaustiveness: a record whose normalized `Type` is `Vacancy`
or `Absence` gets a `Type_Fill_Status` among the four canonical buckets; every
count column of a summary row is exactly the (possibly zero) count of its
bucket in that group, so a missing bucket is an explicit 0; and when all of a
group falls in the four buckets the four counts sum to the group size. -/
theorem C4_bucket_exhaustiveness :
    (∀ ty status : String,
      (pyTitle (pyStrip ty) = "Vacancy" ∨ pyTitle (pyStrip ty) = "Absence") →
      mkTypeFillStatus ty status ∈ fourBuckets) ∧
    (∀ (df : List SRec), ∀ row ∈ create_summary_stats df,
      row.vacancyFilled
          = bucketCount (groupRecs df (row.groupKey, row.classification)) "Vacancy_Filled" ∧
      row.vacancyUnfilled
          = bucketCount (groupRecs df (row.groupKey, row.classification)) "Vacancy_Unfilled" ∧
      row.absenceFilled
          = bucketCount (groupRecs df (row.groupKey, row.classification)) "Absence_Filled" ∧
      row.absenceUnfilled
          = bucketCount (groupRecs df (row.groupKey, row.classification)) "Absence_Unfilled") ∧
    (∀ (df : List SRec), ∀ row ∈ create_summary_stats df,
      (∀ r ∈ groupRecs df (row.groupKey, row.classification), r.typeFillStatus ∈ fourBuckets) →
      row.vacancyFilled + row.vacancyUnfilled + row.absenceFilled + row.absenceUnfilled
        = (groupRecs df (row.groupKey, row.classification)).length) := by
  refine ⟨?_, ?_, ?_⟩
  · intro ty status hty
    rw [mkTypeFillStatus, fillStatusOf]
    rcases hty with h | h <;> rw [h] <;> by_cases hs : status ∈ filledStatuses <;>
      simp [hs, fourBuckets]
  · intro df row hrow
    rw [create_summary_stats, List.mem_map] at hrow
    obtain ⟨g, hg, rfl⟩ := hrow
    exact ⟨rfl, rfl, rfl, rfl⟩
  · intro df row hrow hall
    rw [create_summary_stats, List.mem_map] at hrow
    obtain ⟨g, hg, rfl⟩ := hrow
    exact bucketCount_four_sum _ hall

/-- Witness for C4 at concrete inputs: a raw vacancy type lands in the
canonical buckets, and the four counts of the sample group (which include
explicit zeros) sum to its size 1. -/
theorem C4_bucket_exhaustiveness_witness :
    mkTypeFillStatus " VACANCY " "Finished/Pre Arranged" ∈ fourBuckets ∧
    (mkSummaryRow sampleSRecs ([], "PARAPROFESSIONAL")).vacancyFilled +
      (mkSummaryRow sampleSRecs ([], "PARAPROFESSIONAL")).vacancyUnfilled +
      (mkSummaryRow sampleSRecs ([], "PARAPROFESSIONAL")).absenceFilled +
      (mkSummaryRow sampleSRecs ([], "PARAPROFESSIONAL")).absenceUnfilled
      = (groupRecs sampleSRecs ([], "PARAPROFESSIONAL")).length :=
  ⟨C4_bucket_exhaustiveness.1 " VACANCY " "Finished/Pre Arranged" (Or.inl (by decide)),
   C4_bucket_exhaustiveness.2.2 sampleSRecs
     (mkSummaryRow sampleSRecs ([], "PARAPROFESSIONAL"))
     (List.mem_map_of_mem _ (by decide)) (by decide)⟩

/-! ## C9: duplicate reference rows resolve first-wins -/

/-- Helper: looking up a key in the dictionary built by insertion with
overwrite returns the value of the last binding for that key. -/
theorem foldl_dict_lookup (m : List (String × MapInfo)) :
    ∀ (f0 : String → Option MapInfo) (loc : String),
      m.foldl (fun f p => fun k => if k = p.1 then some p.2 else f k) f0 loc
        = match m.reverse.find? (fun p => decide (p.1 = loc)) with
          | some p => some p.2
          | none => f0 loc := by
  induction m with
  | nil => intro f0 loc; rfl
  | cons p m ih =>
    intro f0 loc
    rw [List.foldl_cons, ih, List.reverse_cons, List.find?_append]
    cases hm : m.reverse.find? (fun q => decide (q.1 = loc)) with
    | some q => rfl
    | none =>
      simp only [Option.none_or]
      by_cases hl : p.1 = loc
      · simp [List.find?_cons, hl]
      · have : loc ≠ p.1 := fun h => hl h.symm
        simp [List.find?_cons, hl, this]

/-- Helper: `drop_duplicates(keep='first')` does not change the first match
of any location not already excluded. -/
theorem dedupFirstAux_find (m : List (String × MapInfo)) :
    ∀ (seen : List String) (loc : String), loc ∉ seen →
      (dedupFirstAux seen m).find? (fun p => decide (p.1 = loc))
        = m.find? (fun p => decide (p.1 = loc)) := by
  induction m with
  | nil => intro seen loc _; rfl
  | cons p m ih =>
    intro seen loc hloc
    rw [dedupFirstAux]
    by_cases hp : p.1 ∈ seen
    · rw [if_pos hp, ih seen loc hloc]
      have hne : ¬p.1 = loc := fun h => hloc (h ▸ hp)
      simp [List.find?_cons, hne]
    · rw [if_neg hp]
      by_cases he : p.1 = loc
      · simp [List.find?_cons, he]
      · have hloc2 : loc ∉ p.1 :: seen := by
          intro h
          rcases List.mem_cons.1 h with h1 | h1
          · exact he h1.symm
          · exact hloc h1
        simp [List.find?_cons, he, ih (p.1 :: seen) loc hloc2]

/-- Helper: the deduplicated mapping has pairwise-distinct location keys, none
of them in the excluded set. -/
theorem dedupFirstAux_keys (m : List (String × MapInfo)) :
    ∀ seen : List String,
      ((dedupFirstAux seen m).map (fun p => p.1)).Nodup ∧
      ∀ k ∈ (dedupFirstAux seen m).map (fun p => p.1), k ∉ seen := by
  induction m with
  | nil =>
    intro seen
    refine ⟨List.nodup_nil, ?_⟩
    intro k hk
    simp [dedupFirstAux] at hk
  | cons p m ih =>
    intro seen
    rw [dedupFirstAux]
    by_cases hp : p.1 ∈ seen
    · rw [if_pos hp]; exact ih seen
    · rw [if_neg hp]
      obtain ⟨h1, h2⟩ := ih (p.1 :: seen)
      refine ⟨?_, ?_⟩
      · simp only [List.map_cons, List.nodup_cons]
        exact ⟨fun hmem => (h2 _ hmem) (List.mem_cons_self _ _), h1⟩
      · intro k hk
        simp only [List.map_cons, List.mem_cons] at hk
        rcases hk with rfl | hk
        · exact hp
        · exact fun hks => (h2 k hk) (List.mem_cons_of_mem _ hks)

/-- Helper: on a list with pairwise-distinct keys, the last match equals the
first match. -/
theorem find?_reverse_of_nodup_keys (m : List (String × MapInfo))
    (h : (m.map (fun p => p.1)).Nodup) (loc : String) :
    m.reverse.find? (fun p => decide (p.1 = loc))
      = m.find? (fun p => decide (p.1 = loc)) := by
  induction m with
  | nil => rfl
  | cons p m ih =>
    simp only [List.map_cons, List.nodup_cons] at h
    obtain ⟨hp, hm⟩ := h
    rw [List.reverse_cons, List.find?_append, ih hm]
    by_cases he : p.1 = loc
    · have hnone : m.find? (fun q => decide (q.1 = loc)) = none := by
        rw [List.find?_eq_none]
        intro q hq hdq
        rw [decide_eq_true_eq] at hdq
        exact hp (by rw [he, ← hdq]; exact List.mem_map_of_mem _ hq)
      rw [hnone]
      simp [List.find?_cons, List.find?_nil, he]
    · simp [List.find?_cons, List.find?_nil, he, Option.or_none]

/-- C9: duplicate reference-mapping rows resolve first-wins and consistently:
the dictionary built by `create_school_mapping_dict` from
`load_superintendent_mapping` returns, for every location, the info of the
first surviving reference row with that location (after the dropna and the
75-to-97 remap), and `add_superintendent_info` enriches a record at that
location with exactly that first-seen superintendent and district (falling
back to the literal `Unknown` when the location is unmapped). -/
theorem C9_duplicate_first_wins :
    ∀ (rows : List RefRow) (loc : String),
      create_school_mapping_dict (load_superintendent_mapping rows) loc
        = ((keptMappingRows rows).find? (fun p => decide (p.1 = loc))).map (fun p => p.2) ∧
      (load_superintendent_mapping rows).find? (fun p => decide (p.1 = loc))
        = (keptMappingRows rows).find? (fun p => decide (p.1 = loc)) ∧
      (add_superintendent_info (create_school_mapping_dict (load_superintendent_mapping rows))
          loc).superintendentName
        = (((keptMappingRows rows).find? (fun p => decide (p.1 = loc))).map
            (fun p => p.2.superintendent)).getD "Unknown" ∧
      (add_superintendent_info (create_school_mapping_dict (load_superintendent_mapping rows))
          loc).districtFromMapping
        = (((keptMappingRows rows).find? (fun p => decide (p.1 = loc))).map
            (fun p => p.2.district)).getD "Unknown" := by
  intro rows loc
  have hkeys := dedupFirstAux_keys (keptMappingRows rows) []
  have hfind : (load_superintendent_mapping rows).find? (fun p => decide (p.1 = loc))
      = (keptMappingRows rows).find? (fun p => decide (p.1 = loc)) :=
    dedupFirstAux_find _ [] loc (List.not_mem_nil loc)
  have hdict : create_school_mapping_dict (load_superintendent_mapping rows) loc
      = ((keptMappingRows rows).find? (fun p => decide (p.1 = loc))).map (fun p => p.2) := by
    rw [create_school_mapping_dict, foldl_dict_lookup]
    rw [show load_superintendent_mapping rows = dedupFirstAux [] (keptMappingRows rows) from rfl]
    rw [find?_reverse_of_nodup_keys _ hkeys.1]
    rw [show (dedupFirstAux [] (keptMappingRows rows)).find? (fun p => decide (p.1 = loc))
        = (keptMappingRows rows).find? (fun p => decide (p.1 = loc)) from hfind]
    cases (keptMappingRows rows).find? (fun p => decide (p.1 = loc)) with
    | some q => rfl
    | none => rfl
  refine ⟨hdict, hfind, ?_, ?_⟩ <;>
  · rw [add_superintendent_info, hdict]
    cases (keptMappingRows rows).find? (fun p => decide (p.1 = loc)) with
    | some q => rfl
    | none => rfl

/-! ## C10: suffix collisions in the location translation -/

/-- Helper: the location translation built by overwrite-folding returns the
stripped form of the last iterated location whose stripped last-four-character
suffix is the key. -/
theorem foldl_mapping_lookup (locs : List String) :
    ∀ (f0 : String → Option String) (k : String),
      locs.foldl (fun f loc => fun key =>
          if key = lastFour (pyStrip loc) then some (pyStrip loc) else f key) f0 k
        = match locs.reverse.find? (fun l => decide (lastFour (pyStrip l) = k)) with
          | some l => some (pyStrip l)
          | none => f0 k := by
  induction locs with
  | nil => intro f0 k; rfl
  | cons x xs ih =>
    intro f0 k
    rw [List.foldl_cons, ih, List.reverse_cons, List.find?_append]
    cases hm : xs.reverse.find? (fun l => decide (lastFour (pyStrip l) = k)) with
    | some l => rfl
    | none =>
      simp only [Option.none_or]
      by_cases hx : lastFour (pyStrip x) = k
      · simp [List.find?_cons, hx]
      · have : k ≠ lastFour (pyStrip x) := fun h => hx h.symm
        simp [List.find?_cons, hx, this]

/-- C10: the payroll-to-primary location translation maps a four-character
suffix to the stripped form of the last distinct `Location` value carrying
that suffix (a later location silently overwrites an earlier one with the same
trailing four characters), and every payroll record is attributed through
exactly this lookup, so on a collision all payroll rows with the shared suffix
go to the later location and none to the earlier one. -/
theorem C10_suffix_overwrite :
    ∀ (mainRows : List PrimRecord) (k s : String) (n : Int) (dt : Date),
      locationMappingOf mainRows k
        = ((pyUnique (mainRows.map (fun r => r.location))).reverse.find?
            (fun l => decide (lastFour (pyStrip l) = k))).map (fun l => pyStrip l) ∧
      sreppPairOf mainRows ⟨s, some n, some dt⟩
        = (locationMappingOf mainRows (schoolClean s)).map
            (fun loc => (loc, sreppJobId s n dt)) := by
  intro mainRows k s n dt
  constructor
  · rw [locationMappingOf, foldl_mapping_lookup]
    cases (pyUnique (mainRows.map (fun r => r.location))).reverse.find?
        (fun l => decide (lastFour (pyStrip l) = k)) with
    | some l => rfl
    | none => rfl
  · rw [sreppPairOf]
    cases locationMappingOf mainRows (schoolClean s) with
    | some l => rfl
    | none => rfl

/-! ## C6: the spreadsheet serial-date epoch -/

/-- C6: the numeric `Job Start` parse
`pd.to_datetime(n - 1, unit='D', origin='1900-01-01')` yields the date `n`
days after 1899-12-31, not `n` days after 1899-12-30 as the claim states: at
the failing input 45000 the code produces 2023-03-16 while the Excel
convention named by the claim denotes 2023-03-15 (one day earlier). -/
theorem C6_serial_date_eval :
    jobStartOfSerial 45000 = ⟨2023, 3, 16⟩ ∧
    addDays ⟨1899, 12, 30⟩ 45000 = ⟨2023, 3, 15⟩ ∧
    ∀ n : Int, jobStartOfSerial n = addDays ⟨1899, 12, 31⟩ n := by
  refine ⟨by decide, by decide, fun n => ?_⟩
  show civilFromDays (daysFromCivil ⟨1900, 1, 1⟩ + (n - 1))
      = civilFromDays (daysFromCivil ⟨1899, 12, 31⟩ + n)
  have h1 : daysFromCivil ⟨1900, 1, 1⟩ = -25567 := by decide
  have h2 : daysFromCivil ⟨1899, 12, 31⟩ = -25568 := by decide
  rw [h1, h2]
  congr 1
  omega

/-! ## The matcher output: shared helper lemmas for C2 and C3 -/

/-- Helper: an empty SubCentral table contributes no pairs. -/
theorem mainSidePairs_of_empty (mt : MainTable) (h : mt.rows.isEmpty = true) :
    mainSidePairs mt = [] := by
  rw [mainSidePairs, if_pos h]

/-- Helper: an empty SREPP table contributes no pairs. -/
theorem sreppSidePairsE_of_empty (mt : MainTable) (st : SreppTable)
    (h : st.rows.isEmpty = true) : sreppSidePairsE mt st = .ok [] := by
  rw [sreppSidePairsE, if_pos h]

/-- Helper: sorting permutes the rows. -/
theorem sortRows_perm (rs : List MatchRow) : (sortRows rs).Perm rs :=
  List.perm_insertionSort _ rs

/-- Helper: a successful matching analysis is a permutation of the unsorted
per-location rows built from the two sides. -/
theorem create_ok_perm (mt : MainTable) (st : SreppTable)
    (sp : List (String × String)) (res : List MatchRow)
    (hsp : sreppSidePairsE mt st = .ok sp)
    (hres : create_matching_analysis mt st = .ok res) :
    res.Perm (matchRows (mainSidePairs mt) sp) := by
  unfold create_matching_analysis at hres
  rw [hsp] at hres
  by_cases h0 : (mt.rows.isEmpty && st.rows.isEmpty) = true
  · rw [if_pos h0] at hres
    have h1 : mt.rows.isEmpty = true ∧ st.rows.isEmpty = true := by
      simpa only [Bool.and_eq_true] using h0
    have hmp : mainSidePairs mt = [] := mainSidePairs_of_empty mt h1.1
    have hsp0 : sp = [] := by
      have h2 := (sreppSidePairsE_of_empty mt st h1.2).symm.trans hsp
      injection h2 with h3
      exact h3.symm
    injection hres with h2
    rw [← h2, hmp, hsp0]
    exact List.Perm.refl _
  · rw [if_neg h0] at hres
    simp only [Except.map] at hres
    injection hres with h2
    by_cases hall : (allLocations (mainSidePairs mt) sp).isEmpty = true
    · rw [if_pos hall] at h2
      have : allLocations (mainSidePairs mt) sp = [] := List.isEmpty_iff.1 hall
      rw [← h2, matchRows, this]
      exact List.Perm.refl _
    · rw [if_neg hall] at h2
      rw [← h2]
      exact sortRows_perm _

/-- Helper: counting one string in a list with pairwise-distinct entries gives
1 or 0 according to membership. -/
theorem countP_eq_ite_of_nodup (L : List String) (l : String) (h : L.Nodup) :
    L.countP (fun x => decide (x = l)) = if l ∈ L then 1 else 0 := by
  induction L with
  | nil => rfl
  | cons x L ih =>
    rw [List.nodup_cons] at h
    rw [List.countP_cons, ih h.2]
    simp only [List.mem_cons]
    by_cases he : x = l
    · subst he
      rw [if_neg h.1]
      simp
    · have hne : ¬l = x := fun h2 => he h2.symm
      simp [he, hne]

/-- Helper: the members of the unsorted matching table are exactly the
`mkMatchRow` values over `all_locations`. -/
theorem mem_matchRows (sub srepp : List (String × String)) (row : MatchRow)
    (h : row ∈ matchRows sub srepp) :
    ∃ l ∈ allLocations sub srepp, row = mkMatchRow sub srepp l := by
  rw [matchRows, List.mem_map] at h
  obtain ⟨l, hl, h2⟩ := h
  exact ⟨l, hl, h2.symm⟩

/-- Helper: a location with a zero total on a side has an empty key set on
that side. -/
theorem jobSetAt_of_totalAt_zero (pairs : List (String × String)) (l : String)
    (h : totalAt pairs l = 0) : jobSetAt pairs l = [] := by
  rw [totalAt] at h
  rw [jobSetAt, List.length_eq_zero.1 h]
  rfl

/-! ## C2: the MatchResult row contract -/

/-- C2: the row contract of `create_matching_analysis`: every location
appearing in either side produces exactly one output row (also when it occurs
on only one side, in which case its `Matched Jobs` is 0), and every row's
`Match Percentage` is `Matched Jobs / Payroll Job Days * 100` with a zero
`Payroll Job Days` giving exactly 0. -/
theorem C2_matchresult_row_contract :
    ∀ (mt : MainTable) (st : SreppTable) (sp : List (String × String)) (res : List MatchRow),
      sreppSidePairsE mt st = .ok sp →
      create_matching_analysis mt st = .ok res →
      (∀ l : String,
        res.countP (fun row => decide (row.location = l))
          = if l ∈ (mainSidePairs mt).map (fun p => p.1) ++ sp.map (fun p => p.1)
            then 1 else 0) ∧
      (∀ row ∈ res,
        row.matchPercentage
          = if row.payrollJobDays = 0 then 0
            else (row.matchedJobs : ℚ) / (row.payrollJobDays : ℚ) * 100) ∧
      (∀ row ∈ res,
        totalAt (mainSidePairs mt) row.location = 0 ∨ totalAt sp row.location = 0 →
        row.matchedJobs = 0) := by
  intro mt st sp res hsp hres
  have hperm := create_ok_perm mt st sp res hsp hres
  refine ⟨?_, ?_, ?_⟩
  · intro l
    rw [List.Perm.countP_eq _ hperm, matchRows, List.countP_map]
    have hfun : ((fun row => decide (row.location = l)) ∘ mkMatchRow (mainSidePairs mt) sp)
        = fun x => decide (x = l) := rfl
    have hcnt := countP_eq_ite_of_nodup (allLocations (mainSidePairs mt) sp) l
      (List.nodup_dedup _)
    rw [hfun, hcnt]
    simp only [allLocations, List.mem_dedup]
  · intro row hrow
    obtain ⟨l, hl, rfl⟩ := mem_matchRows _ _ row (hperm.mem_iff.1 hrow)
    show (if 0 < totalAt sp l then
        ((jobSetAt (mainSidePairs mt) l).countP (fun id => decide (id ∈ jobSetAt sp l)) : ℚ)
          / (totalAt sp l : ℚ) * 100 else 0)
      = if totalAt sp l = 0 then 0
        else ((jobSetAt (mainSidePairs mt) l).countP (fun id => decide (id ∈ jobSetAt sp l)) : ℚ)
          / (totalAt sp l : ℚ) * 100
    by_cases hpd : totalAt sp l = 0
    · rw [if_neg (by omega), if_pos hpd]
    · rw [if_pos (Nat.pos_of_ne_zero hpd), if_neg hpd]
  · intro row hrow hz
    obtain ⟨l, hl, rfl⟩ := mem_matchRows _ _ row (hperm.mem_iff.1 hrow)
    rw [show (mkMatchRow (mainSidePairs mt) sp l).location = l from rfl] at hz
    show (jobSetAt (mainSidePairs mt) l).countP (fun id => decide (id ∈ jobSetAt sp l)) = 0
    rcases hz with hz | hz
    · rw [jobSetAt_of_totalAt_zero _ _ hz]
      rfl
    · rw [List.countP_eq_zero]
      intro a _
      rw [jobSetAt_of_totalAt_zero _ _ hz]
      simp

/-- Witness for C2 at a concrete input: the single SubCentral location of the
sample table (with an empty payroll table) yields exactly one row. -/
theorem C2_matchresult_row_contract_witness :
    ([⟨"M015", 1, 0, 0, 0⟩] : List MatchRow).countP (fun row => decide (row.location = "M015"))
      = if "M015" ∈ (mainSidePairs mtSample).map (fun p => p.1)
            ++ ([] : List (String × String)).map (fun p => p.1) then 1 else 0 :=
  (C2_matchresult_row_contract mtSample stEmpty [] [⟨"M015", 1, 0, 0, 0⟩]
    rfl rfl).1 "M015"

/-! ## C3: matching monotonicity -/

/-- C3: in every row of a successful matching analysis, `Matched Jobs` is at
most the minimum of `SubCentral Job Days` and the size of that location's
deduplicated payroll key set. -/
theorem C3_matching_monotonicity :
    ∀ (mt : MainTable) (st : SreppTable) (sp : List (String × String)) (res : List MatchRow),
      sreppSidePairsE mt st = .ok sp →
      create_matching_analysis mt st = .ok res →
      ∀ row ∈ res,
        row.matchedJobs ≤ min row.subCentralJobDays (jobSetAt sp row.location).length := by
  intro mt st sp res hsp hres row hrow
  have hperm := create_ok_perm mt st sp res hsp hres
  obtain ⟨l, hl, rfl⟩ := mem_matchRows _ _ row (hperm.mem_iff.1 hrow)
  show (jobSetAt (mainSidePairs mt) l).countP (fun id => decide (id ∈ jobSetAt sp l))
      ≤ min (totalAt (mainSidePairs mt) l)
          (jobSetAt sp (mkMatchRow (mainSidePairs mt) sp l).location).length
  rw [show (mkMatchRow (mainSidePairs mt) sp l).location = l from rfl]
  refine le_min ?_ ?_
  · calc (jobSetAt (mainSidePairs mt) l).countP (fun id => decide (id ∈ jobSetAt sp l))
        ≤ (jobSetAt (mainSidePairs mt) l).length := List.countP_le_length _
    _ ≤ (((mainSidePairs mt).filter (fun p => decide (p.1 = l))).map (fun p => p.2)).length :=
        (List.dedup_sublist _).length_le
    _ = ((mainSidePairs mt).filter (fun p => decide (p.1 = l))).length := List.length_map _ _
    _ = totalAt (mainSidePairs mt) l := rfl
  · rw [List.countP_eq_length_filter]
    refine List.Subperm.length_le (List.subperm_of_subset ?_ ?_)
    · exact List.Nodup.filter _ (List.nodup_dedup _)
    · intro a ha
      have := List.of_mem_filter ha
      exact of_decide_eq_true this

/-- Witness for C3 at a concrete input. -/
theorem C3_matching_monotonicity_witness :
    (⟨"M015", 1, 0, 0, 0⟩ : MatchRow).matchedJobs
      ≤ min (⟨"M015", 1, 0, 0, 0⟩ : MatchRow).subCentralJobDays
          (jobSetAt ([] : List (String × String)) "M015").length :=
  C3_matching_monotonicity mtSample stEmpty [] [⟨"M015", 1, 0, 0, 0⟩]
    rfl rfl _ (List.mem_singleton_self _)

/-! ## C1: key construction across the two systems -/

/-- Helper: every translation-table binding maps the four-character suffix of
its value to that value. -/
theorem foldl_mapping_invariant (locs : List String) :
    ∀ (f0 : String → Option String),
      (∀ k v, f0 k = some v → k = lastFour v) →
      ∀ k v, (locs.foldl (fun f loc => fun key =>
          if key = lastFour (pyStrip loc) then some (pyStrip loc) else f key) f0) k = some v →
        k = lastFour v := by
  induction locs with
  | nil => intro f0 h0 k v h; exact h0 k v h
  | cons x xs ih =>
    intro f0 h0 k v h
    rw [List.foldl_cons] at h
    refine ih _ ?_ k v h
    intro k2 v2 h2
    by_cases hk : k2 = lastFour (pyStrip x)
    · rw [if_pos hk] at h2
      injection h2 with h3
      rw [← h3]
      exact hk
    · rw [if_neg hk] at h2
      exact h0 k2 v2 h2

/-- Helper: the key of any location-translation entry is the trailing-four
suffix of its value. -/
theorem locationMappingOf_key (mainRows : List PrimRecord) (k v : String)
    (h : locationMappingOf mainRows k = some v) : k = lastFour v := by
  rw [locationMappingOf] at h
  exact foldl_mapping_invariant _ _ (fun _ _ h0 => by cases h0) k v h

/-- Helper: a string of at most four characters is its own trailing-four
suffix. -/
theorem lastFour_of_length_le (s : String) (h : s.data.length ≤ 4) : lastFour s = s := by
  rw [lastFour, lastFourL, Nat.sub_eq_zero_of_le h, List.drop_zero]

/-- C1 as stated is false: key-construction commutativity fails when the
translated primary location is longer than four characters, because the
payroll composite key is built from the four-character `School_Clean` while
the primary key uses the full location string.  Concretely, a primary
location `XM015` translates the payroll school `ZZM015` (stripped and cut to
`M015`) to itself, the identifiers and dates agree, and the two composite
keys still differ. -/
theorem C1_key_construction_counterexample :
    locationMappingOf [⟨"XM015", "Filled", some 12345, some ⟨2023, 9, 14⟩⟩]
        (schoolClean "ZZM015") = some (pyStrip "XM015") ∧
    zfill 7 (toString (12345 : Int)) = zfill 7 (toString (12345 : Int)) ∧
    fmt8 ⟨2023, 9, 14⟩ = fmt8 ⟨2023, 9, 14⟩ ∧
    primJobId "XM015" 12345 ⟨2023, 9, 14⟩ ≠ sreppJobId "ZZM015" 12345 ⟨2023, 9, 14⟩ := by
  decide

/-- C1 amended: when a primary record and a payroll record agree on the
translated location, on the zero-padded 7-digit identifier and on the
8-digit date string, and the (stripped) primary location has at most four
characters — so that it coincides with its own translation key — the two
composite `Job_ID` strings are equal regardless of the original formatting of
identifier or date. -/
theorem C1_key_construction_amended :
    ∀ (mainRows : List PrimRecord) (loc school : String) (a b : Int) (d1 d2 : Date),
      locationMappingOf mainRows (schoolClean school) = some (pyStrip loc) →
      (pyStrip loc).data.length ≤ 4 →
      zfill 7 (toString a) = zfill 7 (toString b) →
      fmt8 d1 = fmt8 d2 →
      primJobId loc a d1 = sreppJobId school b d2 := by
  intro mainRows loc school a b d1 d2 hmap hlen hz hf
  have hk : schoolClean school = lastFour (pyStrip loc) :=
    locationMappingOf_key mainRows _ _ hmap
  rw [primJobId, sreppJobId, hk, lastFour_of_length_le _ hlen, hz, hf]

/-- Witness for the amended C1 at a concrete input: a four-character location
agreeing with the stripped school code yields equal keys. -/
theorem C1_key_construction_amended_witness :
    primJobId "M015" 12345 ⟨2023, 9, 14⟩ = sreppJobId "ZZM015" 12345 ⟨2023, 9, 14⟩ :=
  C1_key_construction_amended [⟨"M015", "Filled", some 12345, some ⟨2023, 9, 14⟩⟩]
    "M015" "ZZM015" 12345 12345 ⟨2023, 9, 14⟩ ⟨2023, 9, 14⟩
    (by decide) (by decide) rfl rfl

/-! ## C8: degradation on missing columns -/

/-- C8: the code contradicts the claimed no-raise contract in exactly one
case: with the primary `Location` column missing from a non-empty SubCentral
table and at least one valid payroll record, `create_matching_analysis`
raises a `KeyError` while building the location translation — whereas a
missing `Specified Sub` / `Job Start` degrades gracefully to a best-effort
payroll-only result, as the claim describes. -/
theorem C8_missing_location_raises :
    create_matching_analysis mtNoLoc stSample = .error "KeyError: Location" ∧
    ∃ res, create_matching_analysis mtNoSub stSample = .ok res ∧
      res.map (fun r => (r.location, r.subCentralJobDays, r.payrollJobDays, r.matchedJobs))
        = [("M015", 0, 2, 0)] := by
  refine ⟨rfl, ⟨sortRows (matchRows (mainSidePairs mtNoSub)
    (sreppPairs mtNoSub.rows stSample.rows)), rfl, by decide⟩⟩

/-- The graceful side of C8, in general form: whenever the primary table does
have its `Location` column, the matcher never raises; a primary table missing
`Specified Sub` or `Job Start` (or a payroll table missing a required column)
only empties that side's pairs. -/
theorem matcher_degrades_gracefully :
    ∀ (mt : MainTable) (st : SreppTable),
      (mt.hasLocation = true → ∃ res, create_matching_analysis mt st = .ok res) ∧
      (¬(mt.hasLocation = true ∧ mt.hasSpecifiedSub = true ∧ mt.hasJobStart = true) →
        mainSidePairs mt = []) ∧
      (¬(st.hasSchool = true ∧ st.hasEisid = true ∧ st.hasDate = true) →
        sreppSidePairsE mt st = .ok []) := by
  intro mt st
  refine ⟨?_, ?_, ?_⟩
  · intro hloc
    have hok : ∃ sp, sreppSidePairsE mt st = .ok sp := by
      rw [sreppSidePairsE]
      by_cases h1 : st.rows.isEmpty = true
      · rw [if_pos h1]; exact ⟨[], rfl⟩
      · rw [if_neg h1]
        by_cases h2 : (!(st.hasSchool && st.hasEisid && st.hasDate)) = true
        · rw [if_pos h2]; exact ⟨[], rfl⟩
        · rw [if_neg h2]
          by_cases h3 : (sreppValidRows st.rows).isEmpty = true
          · rw [if_pos h3]; exact ⟨[], rfl⟩
          · rw [if_neg h3]
            by_cases h4 : mt.rows.isEmpty = true
            · rw [if_pos h4]; exact ⟨_, rfl⟩
            · rw [if_neg h4, if_neg (by simp [hloc])]
              exact ⟨_, rfl⟩
    obtain ⟨sp, hsp⟩ := hok
    unfold create_matching_analysis
    rw [hsp]
    by_cases h0 : (mt.rows.isEmpty && st.rows.isEmpty) = true
    · rw [if_pos h0]; exact ⟨[], rfl⟩
    · rw [if_neg h0]
      exact ⟨_, rfl⟩
  · intro h
    rw [mainSidePairs]
    by_cases h1 : mt.rows.isEmpty = true
    · rw [if_pos h1]
    · rw [if_neg h1]
      rw [if_neg (by
        intro hc
        simp only [Bool.and_eq_true] at hc
        exact h ⟨hc.1.1, hc.1.2, hc.2⟩)]
  · intro h
    rw [sreppSidePairsE]
    by_cases h1 : st.rows.isEmpty = true
    · rw [if_pos h1]
    · rw [if_neg h1]
      cases hb : (st.hasSchool && st.hasEisid && st.hasDate) with
      | true =>
        have hb2 := hb
        simp only [Bool.and_eq_true] at hb2
        exact absurd ⟨hb2.1.1, hb2.1.2, hb2.2⟩ h
      | false => rw [if_pos (show (!false) = true from rfl)]

/-! ## C7: gender-normalization cleanup

The development below settles the idempotence claim for
`clean_classification_gender`.  It is organised as: unfolding equations for
the recursive scanners, counting lemmas for case-insensitive `MALE`
occurrences, preservation lemmas for whitespace collapsing and stripping, and
finally the assembly. -/

/-- Unfolding equation: `ciStarts` on two cons cells. -/
theorem ciStarts_cons (p c : Char) (ps cs : List Char) :
    ciStarts (p :: ps) (c :: cs) = (decide (upChar c = p) && ciStarts ps cs) := rfl

/-- Unfolding equation: the empty pattern always matches. -/
theorem ciStarts_nil (cs : List Char) : ciStarts [] cs = true := rfl

/-- Unfolding equation: a nonempty pattern never matches the empty text. -/
theorem ciStarts_cons_nil (p : Char) (ps : List Char) : ciStarts (p :: ps) [] = false := rfl

/-- A match extends to any longer text. -/
theorem ciStarts_append : ∀ (pat x y : List Char),
    ciStarts pat x = true → ciStarts pat (x ++ y) = true := by
  intro pat
  induction pat with
  | nil => intro x y _; rfl
  | cons p ps ih =>
    intro x y h
    cases x with
    | nil => rw [ciStarts_cons_nil] at h; cases h
    | cons c cs =>
      simp only [List.cons_append] at h ⊢
      rw [ciStarts_cons, Bool.and_eq_true] at h ⊢
      exact ⟨h.1, ih cs y h.2⟩

/-- Unfolding equation: `startsMale` on a cons cell. -/
theorem startsMale_cons (c : Char) (cs : List Char) :
    startsMale (c :: cs) = (decide (upChar c = 'M') && ciStarts ['A', 'L', 'E'] cs) := rfl

/-- Unfolding equation: `startsFemale` on a cons cell. -/
theorem startsFemale_cons (c : Char) (cs : List Char) :
    startsFemale (c :: cs)
      = (decide (upChar c = 'F') && ciStarts ['E', 'M', 'A', 'L', 'E'] cs) := rfl

/-- Unfolding equation: `maleCount` on a cons cell. -/
theorem maleCount_cons (c : Char) (cs : List Char) :
    maleCount (c :: cs) = (if startsMale (c :: cs) then 1 else 0) + maleCount cs := rfl

/-- The count never decreases when a character is prepended. -/
theorem maleCount_le_cons (c : Char) (cs : List Char) :
    maleCount cs ≤ maleCount (c :: cs) := by
  rw [maleCount_cons]
  omega

/-- Dropping a prefix cannot increase the count. -/
theorem maleCount_dropWhile_le (p : Char → Bool) (cs : List Char) :
    maleCount (cs.dropWhile p) ≤ maleCount cs := by
  induction cs with
  | nil => exact le_refl _
  | cons c cs ih =>
    rw [List.dropWhile_cons]
    by_cases hp : p c = true
    · rw [if_pos hp]
      exact le_trans ih (maleCount_le_cons c cs)
    · rw [if_neg hp]

/-- Dropping any number of leading characters cannot increase the count. -/
theorem maleCount_drop_le (n : Nat) (cs : List Char) :
    maleCount (cs.drop n) ≤ maleCount cs := by
  induction cs generalizing n with
  | nil => rw [List.drop_nil]
  | cons c cs ih =>
    cases n with
    | zero => rw [List.drop_zero]
    | succ n =>
      rw [List.drop_succ_cons]
      exact le_trans (ih n) (maleCount_le_cons c cs)

/-- A single character contains no occurrence. -/
theorem maleCount_singleton (c : Char) : maleCount [c] = 0 := by
  rw [maleCount_cons]
  have h : startsMale [c] = false := by
    rw [startsMale_cons, show ciStarts ['A', 'L', 'E'] ([] : List Char) = false from rfl]
    exact Bool.and_false _
  rw [h]
  rfl

/-- A whitespace character is unchanged by uppercasing. -/
theorem upChar_of_space (c : Char) (h : isPySpace c = true) : upChar c = c := by
  rw [isPySpace] at h
  simp only [Bool.or_eq_true, decide_eq_true_eq] at h
  rcases h with ((((h | h) | h) | h) | h) | h <;> subst h <;> decide

/-- A character whose uppercasing is a word character is itself a word
character. -/
theorem word_of_upChar_word (c u : Char) (hu : isWordChar u = true) (h : upChar c = u) :
    isWordChar c = true := by
  rw [upChar] at h
  split at h
  · next hcond =>
    rw [isWordChar]
    have hlow : Char.isLower c = true := by
      rw [Char.isLower]
      have h1 : c.val ≥ 97 := hcond.1
      have h2 : c.val ≤ 122 := hcond.2
      rw [decide_eq_true h1, decide_eq_true h2]
      rfl
    simp [Char.isAlphanum, Char.isAlpha, hlow]
  · rw [h]
    exact hu

/-- The occurrence count of a text beginning with the token `MALE`: one plus
the count of the text after the token. -/
theorem maleCount_of_startsMale (cs : List Char) (h : startsMale cs = true) :
    maleCount cs = 1 + maleCount (cs.drop 4) := by
  rcases cs with _ | ⟨a, _ | ⟨b, _ | ⟨c, _ | ⟨d, t⟩⟩⟩⟩
  · cases h
  · rw [startsMale_cons] at h
    simp only [ciStarts_cons, ciStarts_cons_nil, Bool.and_false] at h
    cases h
  · rw [startsMale_cons] at h
    simp only [ciStarts_cons, ciStarts_cons_nil, Bool.and_false] at h
    cases h
  · rw [startsMale_cons] at h
    simp only [ciStarts_cons, ciStarts_cons_nil, Bool.and_false] at h
    cases h
  · have h2 := h
    rw [startsMale_cons] at h2
    simp only [ciStarts_cons, ciStarts_nil, Bool.and_true, Bool.and_eq_true,
      decide_eq_true_eq] at h2
    obtain ⟨ha, hb, hc, hd⟩ := h2
    have sb : startsMale (b :: c :: d :: t) = false := by
      rw [startsMale_cons, hb]
      simp
    have sc : startsMale (c :: d :: t) = false := by
      rw [startsMale_cons, hc]
      simp
    have sd : startsMale (d :: t) = false := by
      rw [startsMale_cons, hd]
      simp
    rw [maleCount_cons, maleCount_cons, maleCount_cons, maleCount_cons,
      if_pos h, sb, sc, sd]
    show 1 + (0 + (0 + (0 + maleCount t))) = 1 + maleCount t
    omega

/-- The occurrence count of a text beginning with the token `FEMALE`: one
plus the count of the text after the token (the single embedded `MALE` sits
at offset 2). -/
theorem maleCount_of_startsFemale (cs : List Char) (h : startsFemale cs = true) :
    maleCount cs = 1 + maleCount (cs.drop 6) := by
  rcases cs with _ | ⟨a, _ | ⟨b, _ | ⟨c, _ | ⟨d, _ | ⟨e, _ | ⟨f, t⟩⟩⟩⟩⟩⟩
  · cases h
  · rw [startsFemale_cons] at h
    simp only [ciStarts_cons, ciStarts_cons_nil, Bool.and_false] at h
    cases h
  · rw [startsFemale_cons] at h
    simp only [ciStarts_cons, ciStarts_cons_nil, Bool.and_false] at h
    cases h
  · rw [startsFemale_cons] at h
    simp only [ciStarts_cons, ciStarts_cons_nil, Bool.and_false] at h
    cases h
  · rw [startsFemale_cons] at h
    simp only [ciStarts_cons, ciStarts_cons_nil, Bool.and_false] at h
    cases h
  · rw [startsFemale_cons] at h
    simp only [ciStarts_cons, ciStarts_cons_nil, Bool.and_false] at h
    cases h
  · have h2 := h
    rw [startsFemale_cons] at h2
    simp only [ciStarts_cons, ciStarts_nil, Bool.and_true, Bool.and_eq_true,
      decide_eq_true_eq] at h2
    obtain ⟨ha, hb, hc, hd, he, hf⟩ := h2
    have sa : startsMale (a :: b :: c :: d :: e :: f :: t) = false := by
      rw [startsMale_cons, ha]
      simp
    have sb : startsMale (b :: c :: d :: e :: f :: t) = false := by
      rw [startsMale_cons, hb]
      simp
    have sc : startsMale (c :: d :: e :: f :: t) = true := by
      rw [startsMale_cons, hc]
      simp only [ciStarts_cons, ciStarts_nil, Bool.and_true, hd, he, hf]
      decide
    have sd : startsMale (d :: e :: f :: t) = false := by
      rw [startsMale_cons, hd]
      simp
    have se : startsMale (e :: f :: t) = false := by
      rw [startsMale_cons, he]
      simp
    have sf : startsMale (f :: t) = false := by
      rw [startsMale_cons, hf]
      simp
    rw [maleCount_cons, maleCount_cons, maleCount_cons, maleCount_cons,
      maleCount_cons, maleCount_cons, sa, sb, if_pos sc, sd, se, sf]
    show 0 + (0 + (1 + (0 + (0 + (0 + maleCount t))))) = 1 + maleCount t
    omega

/-- Unfolding equation: the scan on the empty list. -/
theorem rgAux_nil (n : Nat) (eat : Bool) (prev : Option Char) : rgAux n eat prev [] = [] := by
  cases n <;> rfl

/-- Unfolding equation: a pending token character is deleted. -/
theorem rgAux_succ_cons (n : Nat) (eat : Bool) (prev : Option Char) (c : Char) (cs : List Char) :
    rgAux (n + 1) eat prev (c :: cs) = rgAux n true (some c) cs := rfl

/-- Unfolding equation: the scanning step. -/
theorem rgAux_zero_cons (eat : Bool) (prev : Option Char) (c : Char) (cs : List Char) :
    rgAux 0 eat prev (c :: cs)
      = if eat && isPySpace c then rgAux 0 true (some c) cs
        else if boundaryB prev && startsFemale (c :: cs) then rgAux 5 true (some c) cs
        else if boundaryB prev && startsMale (c :: cs) then rgAux 3 true (some c) cs
        else c :: rgAux 0 false (some c) cs := rfl

/-- Unfolding equation: `fires` on a cons cell. -/
theorem fires_cons (prev : Option Char) (c : Char) (cs : List Char) :
    fires prev (c :: cs)
      = ((boundaryB prev && (startsFemale (c :: cs) || startsMale (c :: cs)))
          || fires (some c) cs) := rfl

/-- A whitespace character is never a word character, so it always carries a
boundary. -/
theorem boundaryB_of_space (c : Char) (h : isPySpace c = true) :
    boundaryB (some c) = true := by
  rw [isPySpace] at h
  simp only [Bool.or_eq_true, decide_eq_true_eq] at h
  rcases h with ((((h | h) | h) | h) | h) | h <;> subst h <;> decide

/-- A fire is preserved when the boundary at position zero can only get
easier. -/
theorem fires_mono (p1 p2 : Option Char) (cs : List Char) (hb : boundaryB p2 = true)
    (h : fires p1 cs = true) : fires p2 cs = true := by
  cases cs with
  | nil => cases h
  | cons c cs =>
    rw [fires_cons, Bool.or_eq_true] at h ⊢
    rcases h with h | h
    · rw [Bool.and_eq_true] at h
      exact Or.inl (by rw [hb, h.2]; rfl)
    · exact Or.inr h

/-- If the scan fires somewhere, the text contains an occurrence. -/
theorem one_le_maleCount_of_fires : ∀ (cs : List Char) (prev : Option Char),
    fires prev cs = true → 1 ≤ maleCount cs := by
  intro cs
  induction cs with
  | nil => intro prev h; cases h
  | cons c cs ih =>
    intro prev h
    rw [fires_cons, Bool.or_eq_true] at h
    rcases h with h | h
    · rw [Bool.and_eq_true, Bool.or_eq_true] at h
      rcases h.2 with h2 | h2
      · rw [maleCount_of_startsFemale _ h2]
        omega
      · rw [maleCount_of_startsMale _ h2]
        omega
    · exact le_trans (ih _ h) (maleCount_le_cons c cs)

/-- With no fire anywhere, the scan is the identity. -/
theorem rgAux_id_of_not_fires : ∀ (cs : List Char) (prev : Option Char),
    fires prev cs = false → rgAux 0 false prev cs = cs := by
  intro cs
  induction cs with
  | nil => intro prev _; rfl
  | cons c cs ih =>
    intro prev h
    rw [fires_cons, Bool.or_eq_false_iff] at h
    obtain ⟨h1, h2⟩ := h
    rw [rgAux_zero_cons]
    rw [if_neg (by simp)]
    rw [if_neg (by
      intro hx
      rw [Bool.and_eq_true] at hx
      have : (boundaryB prev && (startsFemale (c :: cs) || startsMale (c :: cs))) = true := by
        rw [Bool.and_eq_true, Bool.or_eq_true]
        exact ⟨hx.1, Or.inl hx.2⟩
      rw [h1] at this
      cases this)]
    rw [if_neg (by
      intro hx
      rw [Bool.and_eq_true] at hx
      have : (boundaryB prev && (startsFemale (c :: cs) || startsMale (c :: cs))) = true := by
        rw [Bool.and_eq_true, Bool.or_eq_true]
        exact ⟨hx.1, Or.inr hx.2⟩
      rw [h1] at this
      cases this)]
    rw [ih _ h2]

/-- In the whitespace-eating state on a non-space head, the scan behaves as
in the plain scanning state. -/
theorem rgAux_zero_true_not_space (prev : Option Char) (c : Char) (cs : List Char)
    (h : isPySpace c = false) :
    rgAux 0 true prev (c :: cs) = rgAux 0 false prev (c :: cs) := by
  rw [rgAux_zero_cons, rgAux_zero_cons, h]
  simp

/-- Skipping the remaining token characters and the following whitespace run
lands the scan in the plain scanning state on a suffix of the text. -/
theorem rgAux_skip_eq : ∀ (n : Nat) (cs : List Char) (prev : Option Char),
    ∃ prev2, rgAux n true prev cs = rgAux 0 false prev2 ((cs.drop n).dropWhile isPySpace) := by
  intro n
  induction n with
  | zero =>
    intro cs
    induction cs with
    | nil => intro prev; exact ⟨prev, rfl⟩
    | cons c cs ih =>
      intro prev
      by_cases hc : isPySpace c = true
      · obtain ⟨p2, hp⟩ := ih (some c)
        refine ⟨p2, ?_⟩
        rw [List.drop_zero, List.dropWhile_cons, if_pos hc, rgAux_zero_cons,
          if_pos (by rw [hc]; rfl)]
        rw [List.drop_zero] at hp
        exact hp
      · refine ⟨prev, ?_⟩
        have hc2 : isPySpace c = false := by
          cases hx : isPySpace c
          · rfl
          · exact absurd hx hc
        rw [List.drop_zero, List.dropWhile_cons, if_neg hc]
        exact rgAux_zero_true_not_space prev c cs hc2
  | succ n ih =>
    intro cs prev
    cases cs with
    | nil => exact ⟨prev, by rw [rgAux_nil, List.drop_nil]; rfl⟩
    | cons c cs =>
      obtain ⟨p2, hp⟩ := ih cs (some c)
      exact ⟨p2, by rw [rgAux_succ_cons, List.drop_succ_cons]; exact hp⟩

/-- A scan started after a word character leaves in place any prefix made of
characters that case-fold to word characters: a pattern of word characters
matching the output also matches the input. -/
theorem ciStarts_rgAux_of_word : ∀ (pat cs : List Char) (p : Char),
    isWordChar p = true →
    (∀ q ∈ pat, isWordChar q = true) →
    ciStarts pat (rgAux 0 false (some p) cs) = true →
    ciStarts pat cs = true := by
  intro pat
  induction pat with
  | nil => intro cs p _ _ _; rfl
  | cons q ps ih =>
    intro cs p hp hpat h
    cases cs with
    | nil => rw [rgAux_nil, ciStarts_cons_nil] at h; cases h
    | cons c cs =>
      have hb : boundaryB (some p) = false := by
        show (!isWordChar p) = false
        rw [hp]
        rfl
      rw [rgAux_zero_cons, if_neg (by simp), if_neg (by rw [hb]; simp),
        if_neg (by rw [hb]; simp)] at h
      rw [ciStarts_cons, Bool.and_eq_true, decide_eq_true_eq] at h
      obtain ⟨hqc, htail⟩ := h
      have hcw : isWordChar c = true :=
        word_of_upChar_word c q (hpat q (List.mem_cons_self _ _)) hqc
      rw [ciStarts_cons, Bool.and_eq_true, decide_eq_true_eq]
      exact ⟨hqc, ih cs c hcw (fun r hr => hpat r (List.mem_cons_of_mem _ hr)) htail⟩

/-- A fresh occurrence at the head of the scan output implies the same
occurrence at the head of the input: the scan after the word character `M`
cannot fire within the next three word characters. -/
theorem startsMale_cons_rgAux (c : Char) (cs : List Char)
    (hs : startsMale (c :: rgAux 0 false (some c) cs) = true) :
    startsMale (c :: cs) = true := by
  rw [startsMale_cons, Bool.and_eq_true] at hs ⊢
  refine ⟨hs.1, ?_⟩
  have hcM : upChar c = 'M' := by
    have h1 := hs.1
    rwa [decide_eq_true_eq] at h1
  have hcw : isWordChar c = true := word_of_upChar_word c 'M' (by decide) hcM
  exact ciStarts_rgAux_of_word ['A', 'L', 'E'] cs c hcw (by decide) hs.2

/-- Dropping a prefix does not lengthen a list. -/
theorem length_dropWhile_le_self (p : Char → Bool) (cs : List Char) :
    (cs.dropWhile p).length ≤ cs.length := by
  induction cs with
  | nil => exact le_refl _
  | cons c cs ih =>
    rw [List.dropWhile_cons]
    by_cases hp : p c = true
    · rw [if_pos hp, List.length_cons]
      omega
    · rw [if_neg hp]

/-- The deletion scan never increases the occurrence count. -/
theorem maleCount_rgAux_le : ∀ (N : Nat) (cs : List Char) (prev : Option Char),
    cs.length ≤ N → maleCount (rgAux 0 false prev cs) ≤ maleCount cs := by
  intro N
  induction N with
  | zero =>
    intro cs prev hN
    rw [List.length_eq_zero.1 (Nat.le_zero.1 hN), rgAux_nil]
  | succ N ih =>
    intro cs prev hN
    cases cs with
    | nil => rw [rgAux_nil]
    | cons c cs =>
      rw [List.length_cons, Nat.succ_le_succ_iff] at hN
      rw [rgAux_zero_cons, if_neg (by simp)]
      by_cases hF : (boundaryB prev && startsFemale (c :: cs)) = true
      · rw [if_pos hF, Bool.and_eq_true] at *
        obtain ⟨p2, hp⟩ := rgAux_skip_eq 5 cs (some c)
        rw [hp]
        have hlen : ((cs.drop 5).dropWhile isPySpace).length ≤ N := by
          have l1 := length_dropWhile_le_self isPySpace (cs.drop 5)
          have l2 : (cs.drop 5).length ≤ cs.length := by
            rw [List.length_drop]
            omega
          omega
        have hc1 := ih _ p2 hlen
        have hc2 : maleCount ((cs.drop 5).dropWhile isPySpace) ≤ maleCount (cs.drop 5) :=
          maleCount_dropWhile_le _ _
        have hc3 : maleCount (c :: cs) = 1 + maleCount (cs.drop 5) :=
          maleCount_of_startsFemale (c :: cs) hF.2
        omega
      · rw [if_neg hF]
        by_cases hM : (boundaryB prev && startsMale (c :: cs)) = true
        · rw [if_pos hM, Bool.and_eq_true] at *
          obtain ⟨p2, hp⟩ := rgAux_skip_eq 3 cs (some c)
          rw [hp]
          have hlen : ((cs.drop 3).dropWhile isPySpace).length ≤ N := by
            have l1 := length_dropWhile_le_self isPySpace (cs.drop 3)
            have l2 : (cs.drop 3).length ≤ cs.length := by
              rw [List.length_drop]
              omega
            omega
          have hc1 := ih _ p2 hlen
          have hc2 : maleCount ((cs.drop 3).dropWhile isPySpace) ≤ maleCount (cs.drop 3) :=
            maleCount_dropWhile_le _ _
          have hc3 : maleCount (c :: cs) = 1 + maleCount (cs.drop 3) :=
            maleCount_of_startsMale (c :: cs) hM.2
          omega
        · rw [if_neg hM, maleCount_cons, maleCount_cons]
          have htail := ih cs (some c) hN
          by_cases hs : startsMale (c :: rgAux 0 false (some c) cs) = true
          · rw [if_pos hs, if_pos (startsMale_cons_rgAux c cs hs)]
            omega
          · rw [if_neg hs]
            by_cases hs0 : startsMale (c :: cs) = true
            · rw [if_pos hs0]
              omega
            · rw [if_neg hs0]
              omega

/-- When the scan fires somewhere, the occurrence count strictly decreases. -/
theorem maleCount_rgAux_lt : ∀ (N : Nat) (cs : List Char) (prev : Option Char),
    cs.length ≤ N → fires prev cs = true →
    maleCount (rgAux 0 false prev cs) < maleCount cs := by
  intro N
  induction N with
  | zero =>
    intro cs prev hN hf
    rw [List.length_eq_zero.1 (Nat.le_zero.1 hN)] at hf
    cases hf
  | succ N ih =>
    intro cs prev hN hf
    cases cs with
    | nil => cases hf
    | cons c cs =>
      rw [List.length_cons, Nat.succ_le_succ_iff] at hN
      rw [rgAux_zero_cons, if_neg (by simp)]
      by_cases hF : (boundaryB prev && startsFemale (c :: cs)) = true
      · rw [if_pos hF, Bool.and_eq_true] at *
        obtain ⟨p2, hp⟩ := rgAux_skip_eq 5 cs (some c)
        rw [hp]
        have hc1 := maleCount_rgAux_le (((cs.drop 5).dropWhile isPySpace).length) _ p2
          (le_refl _)
        have hc2 : maleCount ((cs.drop 5).dropWhile isPySpace) ≤ maleCount (cs.drop 5) :=
          maleCount_dropWhile_le _ _
        have hc3 : maleCount (c :: cs) = 1 + maleCount (cs.drop 5) :=
          maleCount_of_startsFemale (c :: cs) hF.2
        omega
      · rw [if_neg hF]
        by_cases hM : (boundaryB prev && startsMale (c :: cs)) = true
        · rw [if_pos hM, Bool.and_eq_true] at *
          obtain ⟨p2, hp⟩ := rgAux_skip_eq 3 cs (some c)
          rw [hp]
          have hc1 := maleCount_rgAux_le (((cs.drop 3).dropWhile isPySpace).length) _ p2
            (le_refl _)
          have hc2 : maleCount ((cs.drop 3).dropWhile isPySpace) ≤ maleCount (cs.drop 3) :=
            maleCount_dropWhile_le _ _
          have hc3 : maleCount (c :: cs) = 1 + maleCount (cs.drop 3) :=
            maleCount_of_startsMale (c :: cs) hM.2
          omega
        · rw [if_neg hM]
          rw [fires_cons, Bool.or_eq_true] at hf
          have hftail : fires (some c) cs = true := by
            rcases hf with h | h
            · rw [Bool.and_eq_true, Bool.or_eq_true] at h
              rcases h.2 with h2 | h2
              · exact absurd (by rw [Bool.and_eq_true]; exact ⟨h.1, h2⟩) hF
              · exact absurd (by rw [Bool.and_eq_true]; exact ⟨h.1, h2⟩) hM
            · exact h
          have htail := ih cs (some c) hN hftail
          rw [maleCount_cons, maleCount_cons]
          by_cases hs : startsMale (c :: rgAux 0 false (some c) cs) = true
          · rw [if_pos hs, if_pos (startsMale_cons_rgAux c cs hs)]
            omega
          · rw [if_neg hs]
            by_cases hs0 : startsMale (c :: cs) = true
            · rw [if_pos hs0]
              omega
            · rw [if_neg hs0]
              omega

/-- Unfolding equation: whitespace collapsing on a singleton. -/
theorem collapseWs_single (c : Char) :
    collapseWs [c] = if isPySpace c then [' '] else [c] := rfl

/-- Unfolding equation: whitespace collapsing on two cons cells. -/
theorem collapseWs_cons2 (c c2 : Char) (cs : List Char) :
    collapseWs (c :: c2 :: cs)
      = if isPySpace c && isPySpace c2 then collapseWs (c2 :: cs)
        else (if isPySpace c then ' ' else c) :: collapseWs (c2 :: cs) := rfl

/-- A pattern of non-whitespace characters matching the head of the collapsed
text also matches the head of the original text. -/
theorem ciStarts_collapseWs : ∀ (cs pat : List Char),
    (∀ p ∈ pat, isPySpace p = false) →
    ciStarts pat (collapseWs cs) = true → ciStarts pat cs = true := by
  intro cs
  induction cs with
  | nil => intro pat _ h; exact h
  | cons c cs ih =>
    intro pat hpat h
    cases cs with
    | nil =>
      rw [collapseWs_single] at h
      cases pat with
      | nil => rfl
      | cons p ps =>
        by_cases hc : isPySpace c = true
        · rw [if_pos hc, ciStarts_cons, Bool.and_eq_true, decide_eq_true_eq] at h
          have hsp : p = ' ' := by
            rw [← h.1]
            decide
          have := hpat p (List.mem_cons_self _ _)
          rw [hsp] at this
          cases this
        · rw [if_neg hc] at h
          exact h
    | cons c2 cs2 =>
      rw [collapseWs_cons2] at h
      by_cases h12 : (isPySpace c && isPySpace c2) = true
      · rw [if_pos h12] at h
        have ih2 := ih pat hpat h
        cases pat with
        | nil => rfl
        | cons p ps =>
          rw [ciStarts_cons, Bool.and_eq_true, decide_eq_true_eq] at ih2
          rw [Bool.and_eq_true] at h12
          have hup : upChar c2 = c2 := upChar_of_space c2 h12.2
          have hsp : p = c2 := by rw [← ih2.1, hup]
          have := hpat p (List.mem_cons_self _ _)
          rw [hsp, h12.2] at this
          cases this
      · rw [if_neg h12] at h
        cases pat with
        | nil => rfl
        | cons p ps =>
          rw [ciStarts_cons, Bool.and_eq_true, decide_eq_true_eq] at h
          obtain ⟨hd, htail⟩ := h
          have ihtail := ih ps (fun r hr => hpat r (List.mem_cons_of_mem _ hr)) htail
          by_cases hc : isPySpace c = true
          · rw [if_pos hc] at hd
            have hsp : p = ' ' := by
              rw [← hd]
              decide
            have := hpat p (List.mem_cons_self _ _)
            rw [hsp] at this
            cases this
          · rw [if_neg hc] at hd
            rw [ciStarts_cons, Bool.and_eq_true, decide_eq_true_eq]
            exact ⟨hd, ihtail⟩

/-- Whitespace collapsing cannot increase the occurrence count. -/
theorem maleCount_collapseWs_le : ∀ cs : List Char,
    maleCount (collapseWs cs) ≤ maleCount cs := by
  intro cs
  induction cs with
  | nil => exact le_refl _
  | cons c cs ih =>
    cases cs with
    | nil =>
      rw [collapseWs_single]
      by_cases hc : isPySpace c = true
      · rw [if_pos hc, maleCount_singleton]
        exact Nat.zero_le _
      · rw [if_neg hc]
    | cons c2 cs2 =>
      rw [collapseWs_cons2]
      by_cases h12 : (isPySpace c && isPySpace c2) = true
      · rw [if_pos h12]
        exact le_trans ih (maleCount_le_cons c (c2 :: cs2))
      · rw [if_neg h12, maleCount_cons, maleCount_cons]
        refine Nat.add_le_add ?_ ih
        by_cases hs : startsMale ((if isPySpace c then ' ' else c) :: collapseWs (c2 :: cs2))
            = true
        · have hs0 : startsMale (c :: c2 :: cs2) = true := by
            rw [startsMale_cons, Bool.and_eq_true, decide_eq_true_eq] at hs
            obtain ⟨hd, htail⟩ := hs
            by_cases hc : isPySpace c = true
            · rw [if_pos hc] at hd
              cases hd
            · rw [if_neg hc] at hd
              have htail2 := ciStarts_collapseWs (c2 :: cs2) ['A', 'L', 'E'] (by decide) htail
              rw [startsMale_cons, Bool.and_eq_true]
              exact ⟨decide_eq_true hd, htail2⟩
          rw [if_pos hs, if_pos hs0]
        · rw [if_neg hs]
          exact Nat.zero_le _

/-- A fire on the collapsed text implies a fire on the original text. -/
theorem fires_collapseWs : ∀ (cs : List Char) (prev : Option Char),
    fires prev (collapseWs cs) = true → fires prev cs = true := by
  intro cs
  induction cs with
  | nil => intro prev h; exact h
  | cons c cs ih =>
    intro prev h
    cases cs with
    | nil =>
      rw [collapseWs_single] at h
      by_cases hc : isPySpace c = true
      · rw [if_pos hc] at h
        rw [fires_cons] at h
        rw [show startsFemale [' '] = false from rfl, show startsMale [' '] = false from rfl,
          show fires (some ' ') ([] : List Char) = false from rfl] at h
        simp at h
      · rw [if_neg hc] at h
        exact h
    | cons c2 cs2 =>
      rw [collapseWs_cons2] at h
      by_cases h12 : (isPySpace c && isPySpace c2) = true
      · rw [if_pos h12] at h
        have ih2 := ih prev h
        rw [Bool.and_eq_true] at h12
        rw [fires_cons, Bool.or_eq_true]
        exact Or.inr (fires_mono prev (some c) (c2 :: cs2) (boundaryB_of_space c h12.1) ih2)
      · rw [if_neg h12] at h
        rw [fires_cons, Bool.or_eq_true] at h
        rcases h with h | h
        · rw [Bool.and_eq_true, Bool.or_eq_true] at h
          obtain ⟨hb, hFM⟩ := h
          have hcns : isPySpace c = false := by
            by_contra hx
            have hx2 : isPySpace c = true := by
              cases hy : isPySpace c
              · exact absurd hy hx
              · rfl
            rcases hFM with h2 | h2
            · rw [if_pos hx2, startsFemale_cons, Bool.and_eq_true, decide_eq_true_eq] at h2
              have : ('F' : Char) = ' ' := by rw [← h2.1]; decide
              cases this
            · rw [if_pos hx2, startsMale_cons, Bool.and_eq_true, decide_eq_true_eq] at h2
              have : ('M' : Char) = ' ' := by rw [← h2.1]; decide
              cases this
          rw [if_neg (by rw [hcns]; exact Bool.false_ne_true)] at hFM
          rw [fires_cons, Bool.or_eq_true]
          refine Or.inl ?_
          rw [Bool.and_eq_true, Bool.or_eq_true]
          refine ⟨hb, ?_⟩
          rcases hFM with h2 | h2
          · rw [startsFemale_cons, Bool.and_eq_true] at h2
            refine Or.inl ?_
            rw [startsFemale_cons, Bool.and_eq_true]
            exact ⟨h2.1, ciStarts_collapseWs (c2 :: cs2) ['E', 'M', 'A', 'L', 'E']
              (by decide) h2.2⟩
          · rw [startsMale_cons, Bool.and_eq_true] at h2
            refine Or.inr ?_
            rw [startsMale_cons, Bool.and_eq_true]
            exact ⟨h2.1, ciStarts_collapseWs (c2 :: cs2) ['A', 'L', 'E'] (by decide) h2.2⟩
        · have ih2 := ih (some (if isPySpace c then ' ' else c)) h
          rw [fires_cons, Bool.or_eq_true]
          refine Or.inr ?_
          by_cases hc : isPySpace c = true
          · exact fires_mono _ (some c) _ (boundaryB_of_space c hc) ih2
          · rw [if_neg hc] at ih2
            exact ih2

/-- Unfolding equation: `normedWs` on a singleton. -/
theorem normedWs_single (c : Char) :
    normedWs [c] = (!isPySpace c || decide (c = ' ')) := rfl

/-- Unfolding equation: `normedWs` on two cons cells. -/
theorem normedWs_cons2 (c c2 : Char) (cs : List Char) :
    normedWs (c :: c2 :: cs)
      = ((!isPySpace c || (decide (c = ' ') && !isPySpace c2)) && normedWs (c2 :: cs)) := rfl

/-- A non-space head survives collapsing. -/
theorem collapseWs_head_not_space (c : Char) (l : List Char) (h : isPySpace c = false) :
    ∃ t, collapseWs (c :: l) = c :: t := by
  cases l with
  | nil =>
    rw [collapseWs_single, if_neg (by rw [h]; exact Bool.false_ne_true)]
    exact ⟨[], rfl⟩
  | cons c3 l2 =>
    rw [collapseWs_cons2, if_neg (by rw [h]; simp), if_neg (by rw [h]; exact Bool.false_ne_true)]
    exact ⟨_, rfl⟩

/-- The output of whitespace collapsing is whitespace-normalized. -/
theorem normedWs_collapseWs : ∀ cs : List Char, normedWs (collapseWs cs) = true := by
  intro cs
  induction cs with
  | nil => rfl
  | cons c cs ih =>
    cases cs with
    | nil =>
      rw [collapseWs_single]
      by_cases hc : isPySpace c = true
      · rw [if_pos hc]
        decide
      · rw [if_neg hc, normedWs_single]
        have hc2 : isPySpace c = false := by
          cases hx : isPySpace c
          · rfl
          · exact absurd hx hc
        rw [hc2]
        rfl
    | cons c2 cs2 =>
      rw [collapseWs_cons2]
      by_cases h12 : (isPySpace c && isPySpace c2) = true
      · rw [if_pos h12]
        exact ih
      · rw [if_neg h12]
        by_cases hc : isPySpace c = true
        · rw [if_pos hc]
          have hc2 : isPySpace c2 = false := by
            cases hx : isPySpace c2
            · rfl
            · exact absurd (by rw [hc, hx]; rfl) h12
          obtain ⟨t, ht⟩ := collapseWs_head_not_space c2 cs2 hc2
          rw [ht, normedWs_cons2, hc2]
          rw [ht] at ih
          rw [ih]
          decide
        · rw [if_neg hc]
          have hc2 : isPySpace c = false := by
            cases hx : isPySpace c
            · rfl
            · exact absurd hx hc
          cases hX : collapseWs (c2 :: cs2) with
          | nil => rw [normedWs_single, hc2]; rfl
          | cons x xs =>
            rw [normedWs_cons2, hc2]
            rw [hX] at ih
            rw [ih]
            rfl

/-- Collapsing is the identity on whitespace-normalized lists. -/
theorem collapseWs_of_normedWs : ∀ cs : List Char, normedWs cs = true → collapseWs cs = cs := by
  intro cs
  induction cs with
  | nil => intro _; rfl
  | cons c cs ih =>
    intro h
    cases cs with
    | nil =>
      rw [normedWs_single, Bool.or_eq_true] at h
      rw [collapseWs_single]
      by_cases hc : isPySpace c = true
      · rcases h with h | h
        · rw [hc] at h
          cases h
        · rw [decide_eq_true_eq] at h
          rw [if_pos hc, h]
      · rw [if_neg hc]
    | cons c2 cs2 =>
      rw [normedWs_cons2, Bool.and_eq_true, Bool.or_eq_true] at h
      obtain ⟨hw, hrest⟩ := h
      rw [collapseWs_cons2]
      have htail := ih hrest
      by_cases hc : isPySpace c = true
      · rcases hw with hw | hw
        · rw [hc] at hw
          cases hw
        · rw [Bool.and_eq_true, decide_eq_true_eq] at hw
          have hc2f : isPySpace c2 = false := by
            cases hx : isPySpace c2
            · rfl
            · rw [hx] at hw
              exact absurd hw.2 (by decide)
          rw [if_neg (by rw [hc, hc2f]; decide), if_pos hc, hw.1, htail]
      · have hc2 : isPySpace c = false := by
          cases hx : isPySpace c
          · rfl
          · exact absurd hx hc
        rw [if_neg (by rw [hc2]; simp), if_neg hc, htail]

/-- The tail of a whitespace-normalized list is whitespace-normalized. -/
theorem normedWs_tail (c : Char) (l : List Char) (h : normedWs (c :: l) = true) :
    normedWs l = true := by
  cases l with
  | nil => rfl
  | cons c2 l2 =>
    rw [normedWs_cons2, Bool.and_eq_true] at h
    exact h.2

/-- A prefix of a whitespace-normalized list is whitespace-normalized. -/
theorem normedWs_append_left : ∀ (l1 l2 : List Char),
    normedWs (l1 ++ l2) = true → normedWs l1 = true := by
  intro l1
  induction l1 with
  | nil => intro l2 _; rfl
  | cons c l1 ih =>
    intro l2 h
    cases l1 with
    | nil =>
      cases l2 with
      | nil => exact h
      | cons x xs =>
        simp only [List.cons_append, List.nil_append] at h
        rw [normedWs_cons2, Bool.and_eq_true, Bool.or_eq_true] at h
        rw [normedWs_single]
        rcases h.1 with h1 | h1
        · rw [h1]
          rfl
        · rw [Bool.and_eq_true] at h1
          rw [h1.1]
          simp
    | cons c2 l1b =>
      simp only [List.cons_append] at h
      rw [normedWs_cons2, Bool.and_eq_true] at h
      have h2 := ih l2 (by simpa using h.2)
      rw [normedWs_cons2, Bool.and_eq_true]
      exact ⟨h.1, h2⟩

/-- Dropping a prefix preserves whitespace-normalization. -/
theorem normedWs_dropWhile (p : Char → Bool) : ∀ cs : List Char,
    normedWs cs = true → normedWs (cs.dropWhile p) = true := by
  intro cs
  induction cs with
  | nil => intro _; rfl
  | cons c cs ih =>
    intro h
    rw [List.dropWhile_cons]
    by_cases hp : p c = true
    · rw [if_pos hp]
      exact ih (normedWs_tail c cs h)
    · rw [if_neg hp]
      exact h

/-- The decomposition of a list into its right-stripped part and the dropped
trailing run. -/
theorem stripRightL_append (cs : List Char) :
    cs = stripRightL cs ++ (cs.reverse.takeWhile isPySpace).reverse := by
  have h : cs.reverse.takeWhile isPySpace ++ cs.reverse.dropWhile isPySpace = cs.reverse :=
    List.takeWhile_append_dropWhile _ _
  have h2 := congrArg List.reverse h
  rw [List.reverse_append, List.reverse_reverse] at h2
  rw [stripRightL]
  exact h2.symm

/-- The head of a dropped-prefix list fails the predicate. -/
theorem dropWhile_head (p : Char → Bool) : ∀ cs : List Char,
    cs.dropWhile p = [] ∨ ∃ c t, cs.dropWhile p = c :: t ∧ p c = false := by
  intro cs
  induction cs with
  | nil => exact Or.inl rfl
  | cons c cs ih =>
    rw [List.dropWhile_cons]
    by_cases hp : p c = true
    · rw [if_pos hp]
      exact ih
    · rw [if_neg hp]
      refine Or.inr ⟨c, cs, rfl, ?_⟩
      cases hx : p c
      · rfl
      · exact absurd hx hp

/-- Dropping a prefix twice is dropping it once. -/
theorem dropWhile_idem (p : Char → Bool) (cs : List Char) :
    (cs.dropWhile p).dropWhile p = cs.dropWhile p := by
  rcases dropWhile_head p cs with h | ⟨c, t, h, hc⟩
  · rw [h]
    rfl
  · rw [h, List.dropWhile_cons, if_neg (by rw [hc]; exact Bool.false_ne_true)]

/-- The stripped form of a list either is empty or starts with a non-space
character. -/
theorem stripL_head (cs : List Char) :
    stripL cs = [] ∨ ∃ c t, stripL cs = c :: t ∧ isPySpace c = false := by
  rw [stripL]
  rcases dropWhile_head isPySpace cs with h | ⟨c, t, h, hc⟩
  · rw [h]
    exact Or.inl rfl
  · rw [h]
    cases hs : stripRightL (c :: t) with
    | nil => exact Or.inl rfl
    | cons x xs =>
      have hd := stripRightL_append (c :: t)
      rw [hs, List.cons_append] at hd
      refine Or.inr ⟨x, xs, rfl, ?_⟩
      have hcx : c = x := by
        injection hd with h1 h2
      rw [← hcx]
      exact hc

/-- Stripping is idempotent. -/
theorem stripL_idem (cs : List Char) : stripL (stripL cs) = stripL cs := by
  have hdw : (stripL cs).dropWhile isPySpace = stripL cs := by
    rcases stripL_head cs with h | ⟨c, t, h, hc⟩
    · rw [h]
      rfl
    · rw [h, List.dropWhile_cons, if_neg (by rw [hc]; exact Bool.false_ne_true)]
  have hrev : (stripL cs).reverse = (cs.dropWhile isPySpace).reverse.dropWhile isPySpace := by
    rw [stripL, stripRightL, List.reverse_reverse]
  have hsr : stripRightL (stripL cs) = stripL cs := by
    rw [stripRightL, hrev, dropWhile_idem, ← hrev, List.reverse_reverse]
  show stripRightL ((stripL cs).dropWhile isPySpace) = stripL cs
  rw [hdw, hsr]

/-- A `FEMALE` match extends to longer text. -/
theorem startsFemale_append (x y : List Char) (h : startsFemale x = true) :
    startsFemale (x ++ y) = true :=
  ciStarts_append _ x y h

/-- A `MALE` match extends to longer text. -/
theorem startsMale_append (x y : List Char) (h : startsMale x = true) :
    startsMale (x ++ y) = true :=
  ciStarts_append _ x y h

/-- A fire on a prefix is a fire on the whole text. -/
theorem fires_append : ∀ (l1 : List Char) (p : Option Char) (l2 : List Char),
    fires p l1 = true → fires p (l1 ++ l2) = true := by
  intro l1
  induction l1 with
  | nil => intro p l2 h; cases h
  | cons c l1 ih =>
    intro p l2 h
    rw [fires_cons, Bool.or_eq_true] at h
    simp only [List.cons_append]
    rw [fires_cons, Bool.or_eq_true]
    rcases h with h | h
    · rw [Bool.and_eq_true, Bool.or_eq_true] at h
      refine Or.inl ?_
      rw [Bool.and_eq_true, Bool.or_eq_true]
      refine ⟨h.1, ?_⟩
      rcases h.2 with h2 | h2
      · exact Or.inl (startsFemale_append (c :: l1) l2 h2)
      · exact Or.inr (startsMale_append (c :: l1) l2 h2)
    · exact Or.inr (ih _ _ h)

/-- A fire after dropping the leading whitespace run is a fire on the whole
text. -/
theorem fires_of_fires_dropWhile : ∀ cs : List Char,
    fires none (cs.dropWhile isPySpace) = true → fires none cs = true := by
  intro cs
  induction cs with
  | nil => intro h; exact h
  | cons c cs ih =>
    intro h
    rw [List.dropWhile_cons] at h
    by_cases hc : isPySpace c = true
    · rw [if_pos hc] at h
      have h2 := ih h
      rw [fires_cons, Bool.or_eq_true]
      exact Or.inr (fires_mono none (some c) cs (boundaryB_of_space c hc) h2)
    · rw [if_neg hc] at h
      exact h

/-- A fire on the stripped text is a fire on the whole text. -/
theorem fires_of_fires_stripL (cs : List Char)
    (h : fires none (stripL cs) = true) : fires none cs = true := by
  refine fires_of_fires_dropWhile cs ?_
  have hd := stripRightL_append (cs.dropWhile isPySpace)
  have h2 := fires_append _ none ((cs.dropWhile isPySpace).reverse.takeWhile isPySpace).reverse h
  rw [stripL] at h2
  rw [← hd] at h2
  exact h2

/-- The count of a prefix never exceeds the count of the whole list. -/
theorem maleCount_append_left_le : ∀ l1 l2 : List Char,
    maleCount l1 ≤ maleCount (l1 ++ l2) := by
  intro l1
  induction l1 with
  | nil => intro l2; exact Nat.zero_le _
  | cons c l1 ih =>
    intro l2
    simp only [List.cons_append]
    rw [maleCount_cons, maleCount_cons]
    refine Nat.add_le_add ?_ (ih l2)
    by_cases hs : startsMale (c :: l1) = true
    · have hs2 : startsMale (c :: (l1 ++ l2)) = true := startsMale_append (c :: l1) l2 hs
      rw [if_pos hs, if_pos hs2]
    · rw [if_neg hs]
      exact Nat.zero_le _

/-- Stripping cannot increase the occurrence count. -/
theorem maleCount_stripL_le (cs : List Char) : maleCount (stripL cs) ≤ maleCount cs := by
  have hd := stripRightL_append (cs.dropWhile isPySpace)
  have h1 : maleCount (stripL cs) ≤ maleCount (cs.dropWhile isPySpace) := by
    conv_rhs => rw [hd]
    exact maleCount_append_left_le _ _
  exact le_trans h1 (maleCount_dropWhile_le _ _)

/-- Stripping preserves whitespace-normalization. -/
theorem normedWs_stripL (cs : List Char) (h : normedWs cs = true) :
    normedWs (stripL cs) = true := by
  have h1 := normedWs_dropWhile isPySpace cs h
  have hd := stripRightL_append (cs.dropWhile isPySpace)
  refine normedWs_append_left (stripL cs)
    ((cs.dropWhile isPySpace).reverse.takeWhile isPySpace).reverse ?_
  rw [stripL, ← hd]
  exact h1

/-- A text whose uppercasing starts with `MALE` matches the token. -/
theorem startsMale_of_map_upChar : ∀ (t rest : List Char),
    t.map upChar = 'M' :: 'A' :: 'L' :: 'E' :: rest → startsMale t = true := by
  intro t rest h
  rcases t with _ | ⟨a, t1⟩
  · simp at h
  rcases t1 with _ | ⟨b, t2⟩
  · simp at h
  rcases t2 with _ | ⟨c, t3⟩
  · simp at h
  rcases t3 with _ | ⟨d, t4⟩
  · simp at h
  simp only [List.map_cons, List.cons.injEq] at h
  obtain ⟨h1, h2, h3, h4, -⟩ := h
  simp [startsMale_cons, ciStarts_cons, ciStarts_nil, h1, h2, h3, h4]

/-- A text whose uppercasing starts with `FEMALE` matches the token. -/
theorem startsFemale_of_map_upChar : ∀ (t rest : List Char),
    t.map upChar = 'F' :: 'E' :: 'M' :: 'A' :: 'L' :: 'E' :: rest → startsFemale t = true := by
  intro t rest h
  rcases t with _ | ⟨a, t1⟩
  · simp at h
  rcases t1 with _ | ⟨b, t2⟩
  · simp at h
  rcases t2 with _ | ⟨c, t3⟩
  · simp at h
  rcases t3 with _ | ⟨d, t4⟩
  · simp at h
  rcases t4 with _ | ⟨e, t5⟩
  · simp at h
  rcases t5 with _ | ⟨f, t6⟩
  · simp at h
  simp only [List.map_cons, List.cons.injEq] at h
  obtain ⟨h1, h2, h3, h4, h5, h6, -⟩ := h
  simp [startsFemale_cons, ciStarts_cons, ciStarts_nil, h1, h2, h3, h4, h5, h6]

/-- A token at the head of the text makes the position-zero boundary fire. -/
theorem fires_of_starts (t : List Char)
    (h : (startsFemale t || startsMale t) = true) : fires none t = true := by
  cases t with
  | nil =>
    rw [show startsFemale ([] : List Char) = false from rfl,
      show startsMale ([] : List Char) = false from rfl] at h
    cases h
  | cons c ts =>
    rw [fires_cons, Bool.or_eq_true]
    refine Or.inl ?_
    rw [Bool.and_eq_true]
    exact ⟨rfl, h⟩

/-- A text on which the scan does not fire is not one of the two special
gender-qualified category names. -/
theorem not_special_of_not_fires (t : List Char) (hft : fires none t = false) :
    ¬(t.map upChar = "FEMALE PARA".data ∨ t.map upChar = "MALE PARA".data) := by
  intro hx
  have hfire : fires none t = true := by
    rcases hx with hx | hx
    · refine fires_of_starts t ?_
      rw [startsFemale_of_map_upChar t (' ' :: 'P' :: 'A' :: 'R' :: 'A' :: []) hx]
      rfl
    · refine fires_of_starts t ?_
      rw [startsMale_of_map_upChar t (' ' :: 'P' :: 'A' :: 'R' :: 'A' :: []) hx]
      simp
  rw [hft] at hfire
  cases hfire

/-- Unfolding equation for the full cleanup at list level. -/
theorem cleanGenderL_eq (cs : List Char) :
    cleanGenderL cs
      = if (stripL cs).map upChar = "FEMALE PARA".data
            ∨ (stripL cs).map upChar = "MALE PARA".data
        then "PARAPROFESSIONAL".data
        else stripL (collapseWs (removeGenderL (stripL cs))) := rfl

/-- The cleanup is idempotent on any character list with at most one
case-insensitive occurrence of `MALE`. -/
theorem cleanGenderL_idem (cs : List Char) (h : maleCount cs ≤ 1) :
    cleanGenderL (cleanGenderL cs) = cleanGenderL cs := by
  have hc : maleCount (stripL cs) ≤ 1 := le_trans (maleCount_stripL_le cs) h
  by_cases hsp : (stripL cs).map upChar = "FEMALE PARA".data
      ∨ (stripL cs).map upChar = "MALE PARA".data
  · rw [cleanGenderL_eq cs, if_pos hsp]
    decide
  · rw [cleanGenderL_eq cs, if_neg hsp]
    cases hf : fires none (stripL cs) with
    | false =>
      have hid : removeGenderL (stripL cs) = stripL cs := rgAux_id_of_not_fires _ none hf
      rw [hid]
      have hstrip : stripL (stripL (collapseWs (stripL cs)))
          = stripL (collapseWs (stripL cs)) := stripL_idem _
      have hft : fires none (stripL (collapseWs (stripL cs))) = false := by
        cases hx : fires none (stripL (collapseWs (stripL cs)))
        · rfl
        · exfalso
          have h2 : fires none (collapseWs (stripL cs)) = true :=
            fires_of_fires_stripL _ hx
          have h3 := fires_collapseWs _ none h2
          rw [hf] at h3
          cases h3
      have hnsp := not_special_of_not_fires _ hft
      rw [cleanGenderL_eq, hstrip, if_neg hnsp]
      have hid2 : removeGenderL (stripL (collapseWs (stripL cs)))
          = stripL (collapseWs (stripL cs)) := rgAux_id_of_not_fires _ none hft
      rw [hid2]
      have hnorm : normedWs (stripL (collapseWs (stripL cs))) = true :=
        normedWs_stripL _ (normedWs_collapseWs _)
      rw [collapseWs_of_normedWs _ hnorm, hstrip]
    | true =>
      have hlt := maleCount_rgAux_lt (stripL cs).length _ none (le_refl _) hf
      have hr0 : maleCount (removeGenderL (stripL cs)) = 0 := by
        rw [removeGenderL]
        omega
      have hct : maleCount (stripL (collapseWs (removeGenderL (stripL cs)))) = 0 := by
        have l1 : maleCount (collapseWs (removeGenderL (stripL cs))) = 0 := by
          have := maleCount_collapseWs_le (removeGenderL (stripL cs))
          omega
        have l2 := maleCount_stripL_le (collapseWs (removeGenderL (stripL cs)))
        omega
      have hstrip : stripL (stripL (collapseWs (removeGenderL (stripL cs))))
          = stripL (collapseWs (removeGenderL (stripL cs))) := stripL_idem _
      have hft : fires none (stripL (collapseWs (removeGenderL (stripL cs)))) = false := by
        cases hx : fires none (stripL (collapseWs (removeGenderL (stripL cs))))
        · rfl
        · have := one_le_maleCount_of_fires _ none hx
          omega
      have hnsp := not_special_of_not_fires _ hft
      rw [cleanGenderL_eq, hstrip, if_neg hnsp]
      have hid2 : removeGenderL (stripL (collapseWs (removeGenderL (stripL cs))))
          = stripL (collapseWs (removeGenderL (stripL cs))) :=
        rgAux_id_of_not_fires _ none hft
      rw [hid2]
      have hnorm : normedWs (stripL (collapseWs (removeGenderL (stripL cs)))) = true :=
        normedWs_stripL _ (normedWs_collapseWs _)
      rw [collapseWs_of_normedWs _ hnorm, hstrip]

/-- C7 as stated is false: the cleanup is not idempotent.  On `MALEMALE` the
first pass removes only the first token (the second is not at a word
boundary), producing `MALE`, which a second pass removes entirely. -/
theorem C7_idempotence_counterexample :
    clean_classification_gender (clean_classification_gender "MALEMALE")
      ≠ clean_classification_gender "MALEMALE" := by
  decide

/-- C7 amended: the three concrete mappings hold, and the cleanup is
idempotent on every string containing at most one case-insensitive occurrence
of the substring `MALE` (deleting a token can place a second overlapping
token at a fresh word boundary, as in `MALEMALE`, so the bound on occurrences
is what the counterexample forces). -/
theorem C7_gender_cleanup_amended :
    clean_classification_gender "FEMALE PARA" = "PARAPROFESSIONAL" ∧
    clean_classification_gender "MALE PARA" = "PARAPROFESSIONAL" ∧
    clean_classification_gender "FEMALE TEACHER AIDE" = "TEACHER AIDE" ∧
    ∀ s : String, maleCount s.data ≤ 1 →
      clean_classification_gender (clean_classification_gender s)
        = clean_classification_gender s := by
  refine ⟨by decide, by decide, by decide, fun s h => ?_⟩
  show (⟨cleanGenderL (cleanGenderL s.data)⟩ : String) = ⟨cleanGenderL s.data⟩
  exact congrArg String.mk (cleanGenderL_idem s.data h)

/-- Witness for the amended C7 at a concrete input with one occurrence. -/
theorem C7_gender_cleanup_amended_witness :
    maleCount "FEMALE TEACHER AIDE".data ≤ 1 ∧
    clean_classification_gender (clean_classification_gender "FEMALE TEACHER AIDE")
      = clean_classification_gender "FEMALE TEACHER AIDE" :=
  ⟨by decide, C7_gender_cleanup_amended.2.2.2 "FEMALE TEACHER AIDE" (by decide)⟩

end ParaJobs
